import Mathlib

/-!
# Shader directive expansion (`sh::ShaderInstance::ShaderInstance`)

A shallow embedding of the constructor of
`source/shiny/Main/ShaderInstance.cpp`: its three expansion passes (property
directives, global-setting directives, foreach unrolling), the calls to the
preprocessor and to the backend that follow them, and the properties of them
that the specification states.

Conventions of the embedding:

* a `std::string` is a `List Char` (one `Char` per byte);
* `size_t` values are natural numbers below `2 ^ 64`; every `+` and `-` the
  source performs on them is taken modulo `2 ^ 64`, and `std::string::npos`
  is `2 ^ 64 - 1`;
* a C++ exception is the `Except.error` result;
* each `while (true)` loop is a step function iterated under a fuel bound;
  running out of fuel is the result `none`, which is neither a text nor an
  error;
* `assert` is taken as enabled: a failed assertion ends the constructor;
* the property resolver and the global-settings map are parameters (`Env`),
  and so are the preprocessor and the backend (`Backend`);
* dereferencing the `end()` iterator of the global-settings map, which is
  undefined behaviour, is the outcome `Err.invalidIterator`;
* the theorems take the source text to be shorter than `npos`, as every
  `std::string` is.
-/

namespace sh

/-- The `std::string` of the source: a sequence of bytes. -/
abbrev Str := List Char

/-- The value of `std::string::npos`, the largest `size_t`. -/
def npos : Nat := 2 ^ 64 - 1

/-- Addition of two `size_t` values. -/
def addSz (a b : Nat) : Nat := (a + b) % 2 ^ 64

/-- Subtraction of two `size_t` values (wraps around below zero). -/
def subSz (a b : Nat) : Nat := (a + 2 ^ 64 - b % 2 ^ 64) % 2 ^ 64

/-- The exceptions (and aborts) the constructor can end with. -/
inductive Err where
  /-- A `std::runtime_error` carrying its message. -/
  | runtimeError (msg : Str)
  /-- The `std::out_of_range` of `substr` and `replace`. -/
  | outOfRange
  /-- The `boost::bad_lexical_cast` of `lexical_cast`. -/
  | badLexicalCast
  /-- A failed `assert`. -/
  | assertionFailed
  /-- Dereferencing the `end()` iterator of the global-settings map: no
  exception is thrown there, the behaviour of the C++ program is undefined. -/
  | invalidIterator
  deriving DecidableEq, Repr

deriving instance DecidableEq for Except

/-- The collaborators the expansion consults, and the instance name. -/
structure Env where
  /-- The instance name, `name` in the constructor. -/
  name : Str
  /-- The call `retrieveValue<BooleanValue>(properties->getProperty(n),
  properties->getContext()).get()`. -/
  getPropertyBool : Str → Except Err Bool
  /-- The call `retrieveValue<StringValue>(properties->getProperty(n),
  properties->getContext()).get()`. -/
  getPropertyString : Str → Except Err Str
  /-- The map `*mParent->getCurrentGlobalSettings()`; `none` is `end()`. -/
  globalSettings : Str → Option Str

/-! ## `std::string` operations -/

/-- The search of `find` in the part of the string that starts at index `i`. -/
def findAux (pat : Str) : Str → Nat → Nat
  | [], i => if pat = [] then i else npos
  | c :: cs, i => if pat.isPrefixOf (c :: cs) then i else findAux pat cs (i + 1)

/-- The call `s.find(pat, pos)`: the lowest index at or after `pos` where `pat`
occurs in `s`, or `npos`. -/
def find (s pat : Str) (pos : Nat) : Nat :=
  if s.length < pos then npos else findAux pat (s.drop pos) pos

/-- The call `s.substr(pos, n)`. -/
def substr (s : Str) (pos n : Nat) : Except Err Str :=
  if s.length < pos then .error .outOfRange else .ok ((s.drop pos).take n)

/-- The call `s.replace(pos, len, str)`, returning the new value of `s`. -/
def replace (s : Str) (pos len : Nat) (str : Str) : Except Err Str :=
  if s.length < pos then .error .outOfRange
  else .ok (s.take pos ++ str ++ (s.drop pos).drop len)

/-- The loop `while (source[comma_end] == ' ') ++comma_end;` over the part of
the string that starts at index `i`; at the end of the string `source[i]` is
the terminating NUL, which stops the loop. -/
def skipSpacesAux : Str → Nat → Nat
  | [], i => i
  | c :: cs, i => if c = ' ' then skipSpacesAux cs (addSz i 1) else i

/-- The loop `while (source[comma_end] == ' ') ++comma_end;` started with
`comma_end = i`. -/
def skipSpaces (s : Str) (i : Nat) : Nat := skipSpacesAux (s.drop i) i

/-! ## `boost` operations -/

/-- The value of a decimal digit, `none` for any other character. -/
def digitValue (c : Char) : Option Nat :=
  if '0' ≤ c ∧ c ≤ '9' then some (c.toNat - '0'.toNat) else none

/-- The unsigned decimal number a non-empty string of digits denotes. -/
def parseDigits : Str → Nat → Option Nat
  | [], acc => some acc
  | c :: cs, acc =>
    match digitValue c with
    | none => none
    | some d => parseDigits cs (acc * 10 + d)

/-- The unsigned part of `lexical_cast<int>`: at least one character, all of
them decimal digits. -/
def parseUnsigned (s : Str) : Option Nat :=
  if s = [] then none else parseDigits s 0

/-- The call `boost::lexical_cast<int>(s)`: an optional sign, then decimal
digits, the value within the range of a 32-bit `int`. -/
def lexical_cast_int (s : Str) : Except Err Int :=
  match s with
  | '-' :: ds =>
    match parseUnsigned ds with
    | some v => if v ≤ 2 ^ 31 then .ok (-(v : Int)) else .error .badLexicalCast
    | none => .error .badLexicalCast
  | '+' :: ds =>
    match parseUnsigned ds with
    | some v => if v ≤ 2 ^ 31 - 1 then .ok (v : Int) else .error .badLexicalCast
    | none => .error .badLexicalCast
  | ds =>
    match parseUnsigned ds with
    | some v => if v ≤ 2 ^ 31 - 1 then .ok (v : Int) else .error .badLexicalCast
    | none => .error .badLexicalCast

/-- The decimal digits of `n`, most significant first; `fuel` bounds the
number of digits. -/
def decimalAux : Nat → Nat → Str
  | 0, _ => []
  | fuel + 1, n =>
    if n < 10 then [Nat.digitChar n]
    else decimalAux fuel (n / 10) ++ [Nat.digitChar (n % 10)]

/-- The decimal rendering of a natural number. -/
def decimal (n : Nat) : Str := decimalAux (n + 1) n

/-- The call `boost::lexical_cast<std::string>(i)` for an `int` `i`. -/
def lexical_cast_string (i : Int) : Str :=
  if i < 0 then '-' :: decimal i.natAbs else decimal i.toNat

/-- The scan of `boost::replace_all`: `skip` counts the characters of a match
that are still to be passed over. -/
def replaceAllAux (search fmt : Str) : Nat → Str → Str
  | _, [] => []
  | skip + 1, _ :: cs => replaceAllAux search fmt skip cs
  | 0, c :: cs =>
    if search.isPrefixOf (c :: cs) then
      fmt ++ replaceAllAux search fmt (search.length - 1) cs
    else c :: replaceAllAux search fmt 0 cs

/-- The call `boost::replace_all(input, search, fmt)`, returning the new value
of `input`: every occurrence of the (non-empty) `search`, found from left to
right without overlap, becomes `fmt`; replaced text is not searched again. -/
def replace_all (input search fmt : Str) : Str := replaceAllAux search fmt 0 input

/-! ## The markers and command names of the source -/

/-- The marker the property pass searches for. -/
def mProperty : Str := "@shProperty".toList

/-- The marker the global-setting pass searches for. -/
def mGlobalSetting : Str := "@shGlobalSetting".toList

/-- The marker the foreach pass searches for. -/
def mForeach : Str := "@shForeach".toList

/-- The token that closes a foreach block. -/
def mEndForeach : Str := "@shEndForeach".toList

/-- The token that `boost::replace_all` replaces by the iteration number. -/
def mIteration : Str := "@shIteration".toList

/-- The message `"unknown command \"" + cmd + "\" in \"" + name + "\""`. -/
def unknownCommand (cmd name : Str) : Str :=
  "unknown command \"".toList ++ cmd ++ "\" in \"".toList ++ name ++ "\"".toList

/-- The literal `val ? "1" : "0"`. -/
def boolLit (b : Bool) : Str := if b then ['1'] else ['0']

/-! ## The property pass (lines 24 to 63) -/

/-- One iteration of the loop `// replace properties`: `none` is the `break`,
`some s` the value of `source` at the end of the iteration. -/
def propertyStep (env : Env) (source : Str) : Except Err (Option Str) :=
  let pos := find source mProperty 0
  if pos = npos then .ok none
  else
    let start := find source ['('] pos
    let end_ := find source [')'] pos
    match substr source (addSz pos 1) (subSz start (addSz pos 1)) with
    | .error e => .error e
    | .ok cmd =>
      let replaceValue : Except Err Str :=
        if cmd = "shPropertyBool".toList then
          match substr source (addSz start 1) (subSz end_ (addSz start 1)) with
          | .error e => .error e
          | .ok propertyName =>
            match env.getPropertyBool propertyName with
            | .error e => .error e
            | .ok val => .ok (boolLit val)
        else if cmd = "shPropertyString".toList then
          match substr source (addSz start 1) (subSz end_ (addSz start 1)) with
          | .error e => .error e
          | .ok propertyName => env.getPropertyString propertyName
        else if cmd = "shPropertyEqual".toList then
          let comma_start := find source [','] pos
          let comma_end := skipSpaces source (addSz comma_start 1)
          match substr source (addSz start 1) (subSz comma_start (addSz start 1)) with
          | .error e => .error e
          | .ok propertyName =>
            match substr source comma_end (subSz end_ comma_end) with
            | .error e => .error e
            | .ok comparedAgainst =>
              match env.getPropertyString propertyName with
              | .error e => .error e
              | .ok value => .ok (boolLit (value = comparedAgainst))
        else .error (.runtimeError (unknownCommand cmd env.name))
      match replaceValue with
      | .error e => .error e
      | .ok v =>
        match replace source pos (subSz (addSz end_ 1) pos) v with
        | .error e => .error e
        | .ok s => .ok (some s)

/-! ## The global-setting pass (lines 65 to 98) -/

/-- One iteration of the loop `// replace global settings`. The two `if`
statements of the source are separate statements: the `else` that throws
belongs to the second one only. -/
def globalSettingStep (env : Env) (source : Str) : Except Err (Option Str) :=
  let pos := find source mGlobalSetting 0
  if pos = npos then .ok none
  else
    let start := find source ['('] pos
    let end_ := find source [')'] pos
    match substr source (addSz pos 1) (subSz start (addSz pos 1)) with
    | .error e => .error e
    | .ok cmd =>
      let afterFirstIf : Except Err Str :=
        if cmd = "shGlobalSettingBool".toList then
          match substr source (addSz start 1) (subSz end_ (addSz start 1)) with
          | .error e => .error e
          | .ok settingName =>
            match env.globalSettings settingName with
            | none => .error .invalidIterator
            | some value =>
              .ok (boolLit (decide (value = "true".toList ∨ value = "1".toList)))
        else .ok []
      match afterFirstIf with
      | .error e => .error e
      | .ok _ =>
        let replaceValue : Except Err Str :=
          if cmd = "shGlobalSettingEqual".toList then
            let comma_start := find source [','] pos
            let comma_end := skipSpaces source (addSz comma_start 1)
            match substr source (addSz start 1) (subSz comma_start (addSz start 1)) with
            | .error e => .error e
            | .ok settingName =>
              match substr source comma_end (subSz end_ comma_end) with
              | .error e => .error e
              | .ok comparedAgainst =>
                match env.globalSettings settingName with
                | none => .error .invalidIterator
                | some value => .ok (boolLit (value = comparedAgainst))
          else .error (.runtimeError (unknownCommand cmd env.name))
        match replaceValue with
        | .error e => .error e
        | .ok v =>
          match replace source pos (subSz (addSz end_ 1) pos) v with
          | .error e => .error e
          | .ok s => .ok (some s)

/-! ## The foreach pass (lines 100 to 127) -/

/-- The loop `for (int i=0; i<num; ++i)`: the value of `replaceStr` after it. -/
def unroll (content : Str) (num : Int) : Str :=
  (List.range num.toNat).foldl
    (fun (replaceStr : Str) (i : Nat) =>
      replaceStr ++ replace_all content mIteration (lexical_cast_string (Int.ofNat i)))
    []

/-- One iteration of the loop `// parse foreach`. -/
def foreachStep (source : Str) : Except Err (Option Str) :=
  let pos := find source mForeach 0
  if pos = npos then .ok none
  else
    let start := find source ['('] pos
    let end_ := find source [')'] pos
    match substr source (addSz start 1) (subSz end_ (addSz start 1)) with
    | .error e => .error e
    | .ok arg =>
      match lexical_cast_int arg with
      | .error e => .error e
      | .ok num =>
        if find source mEndForeach pos = npos then .error .assertionFailed
        else
          let block_end := find source mEndForeach pos
          match substr source (addSz end_ 1) (subSz block_end (addSz end_ 1)) with
          | .error e => .error e
          | .ok content =>
            match replace source pos
                (subSz (addSz block_end mEndForeach.length) pos) (unroll content num) with
            | .error e => .error e
            | .ok s => .ok (some s)

/-! ## The three passes in order -/

/-- A `while (true)` loop whose body is `step`, run for at most `fuel`
iterations: `none` when the fuel does not suffice, otherwise the text at the
`break` or the exception that ended the loop. -/
def iterate (step : Str → Except Err (Option Str)) : Nat → Str → Option (Except Err Str)
  | 0, _ => none
  | fuel + 1, source =>
    match step source with
    | .error e => some (.error e)
    | .ok none => some (.ok source)
    | .ok (some s) => iterate step fuel s

/-- The loop `// replace properties`. -/
def propertyPass (env : Env) (fuel : Nat) (source : Str) : Option (Except Err Str) :=
  iterate (propertyStep env) fuel source

/-- The loop `// replace global settings`. -/
def globalSettingPass (env : Env) (fuel : Nat) (source : Str) : Option (Except Err Str) :=
  iterate (globalSettingStep env) fuel source

/-- The loop `// parse foreach`. -/
def foreachPass (fuel : Nat) (source : Str) : Option (Except Err Str) :=
  iterate foreachStep fuel source

/-- The expansion of lines 24 to 127: the property pass, then the
global-setting pass on its result, then the foreach pass; each loop may run
for `fuel` iterations. -/
def expand (env : Env) (fuel : Nat) (source : Str) : Option (Except Err Str) :=
  match propertyPass env fuel source with
  | none => none
  | some (.error e) => some (.error e)
  | some (.ok s1) =>
    match globalSettingPass env fuel s1 with
    | none => none
    | some (.error e) => some (.error e)
    | some (.ok s2) => foreachPass fuel s2

/-! ## Shapes of source text used to state the properties -/

/-- The directive text `@cmd(args)`. -/
def directive (cmd args : Str) : Str := '@' :: cmd ++ '(' :: args ++ [')']

/-- The text of `k` spaces. -/
def spaces (k : Nat) : Str := List.replicate k ' '

/-- The texts of `segs` put one after the other with `sep` between each two
neighbours. -/
def joinWith (sep : Str) : List Str → Str
  | [] => []
  | [s] => s
  | s :: t :: rest => s ++ sep ++ joinWith sep (t :: rest)

/-! ## Concrete inputs for the examples -/

/-- An environment for the examples: the boolean property `useShadows` is
true, the string property `quality` is `high`, the global setting
`rendersystem` is `opengl` and the global setting `shadows` is `true`. -/
def exampleEnv : Env where
  name := "terrain".toList
  getPropertyBool := fun n =>
    if n = "useShadows".toList then .ok true else .error (.runtimeError "no property".toList)
  getPropertyString := fun n =>
    if n = "quality".toList then .ok "high".toList
    else .error (.runtimeError "no property".toList)
  globalSettings := fun n =>
    if n = "rendersystem".toList then some "opengl".toList
    else if n = "shadows".toList then some "true".toList
    else none

/-- An environment whose string properties hold directive text: `a` is
`@shPropertyBool(b)` and `loop` is `@shPropertyString(loop)`; the boolean
property `b` is true. -/
def rescanEnv : Env where
  name := "water".toList
  getPropertyBool := fun n =>
    if n = "b".toList then .ok true else .error (.runtimeError "no property".toList)
  getPropertyString := fun n =>
    if n = "a".toList then .ok "@shPropertyBool(b)".toList
    else if n = "loop".toList then .ok "@shPropertyString(loop)".toList
    else .error (.runtimeError "no property".toList)
  globalSettings := fun _ => none

/-- An environment whose collaborators fail for every name. -/
def failingEnv : Env where
  name := "sky".toList
  getPropertyBool := fun _ => .error (.runtimeError "no property".toList)
  getPropertyString := fun _ => .error (.runtimeError "no property".toList)
  globalSettings := fun _ => none

/-- An environment that resolves every name: every boolean property is true,
every string property is `s`, every global setting is `v`. -/
def agreeingEnv : Env where
  name := "grass".toList
  getPropertyBool := fun _ => .ok true
  getPropertyString := fun _ => .ok "s".toList
  globalSettings := fun _ => some "v".toList

/-! ## The constructor as a whole (lines 15 to 146) -/

/-- The `Program` the backend returns; `supported` is `getSupported()`. -/
structure Program where
  supported : Bool
  deriving DecidableEq, Repr

/-- The owning shader set `mParent`, as far as the constructor reads it, with
the two enumerators of `ShaderSet::Type` it compares against. -/
structure ShaderSet where
  /-- The value of `getSource()`. -/
  source : Str
  /-- The value of `getType()`. -/
  type : Int
  /-- The value of `getBasePath()`. -/
  basePath : Str
  /-- The value of `getProfile()`. -/
  profile : Str
  /-- The enumerator `ShaderSet::Type_Vertex`. -/
  Type_Vertex : Int
  /-- The enumerator `ShaderSet::Type_Fragment`. -/
  Type_Fragment : Int

/-- The preprocessor and the platform backend reached through `Factory`. -/
structure Backend where
  /-- The call `p.preprocess(source, basePath, std::vector<std::string>(), name)`. -/
  preprocess : Str → Str → Str → Except Err Str
  /-- The value of `Factory::getInstance().getCurrentLanguage()`. -/
  currentLanguage : Nat
  /-- The call `platform->createVertexProgram("", name, profile, source, language)`. -/
  createVertexProgram : Str → Str → Str → Nat → Except Err Program
  /-- The call `platform->createFragmentProgram("", name, profile, source, language)`. -/
  createFragmentProgram : Str → Str → Str → Nat → Except Err Program

/-- A call of the constructor to the preprocessor or to the backend, with its
arguments. -/
inductive Call where
  | preprocess (source basePath name : Str)
  | createVertexProgram (name profile source : Str) (language : Nat)
  | createFragmentProgram (name profile source : Str) (language : Nat)
  deriving DecidableEq, Repr

/-- The members of a constructed `ShaderInstance`. -/
structure ShaderInstance where
  mName : Str
  mSupported : Bool
  mProgram : Program
  deriving DecidableEq, Repr

/-- The method `ShaderInstance::getName`. -/
def ShaderInstance.getName (i : ShaderInstance) : Str := i.mName

/-- The method `ShaderInstance::getSupported`. -/
def ShaderInstance.getSupported (i : ShaderInstance) : Bool := i.mSupported

/-- The lines 144 and 145 on a program the backend returned: `mSupported`
starts as `true` and becomes `false` when the program is not supported. -/
def finish (name : Str) (program : Program) : ShaderInstance :=
  { mName := name, mSupported := if !program.supported then false else true,
    mProgram := program }

/-- The constructor `ShaderInstance(parent, name, properties)`, with the name,
the resolver and the global settings of the parent in `env`: the calls made to
the preprocessor and to the backend, in order, and the instance or the
exception; `none` when the fuel does not suffice for the expansion. With a
type that is neither enumerator `mProgram` stays empty and
`mProgram->getSupported()` fails the assertion of `shared_ptr::operator->`. -/
def construct (backend : Backend) (parent : ShaderSet) (env : Env) (fuel : Nat) :
    Option (List Call × Except Err ShaderInstance) :=
  match expand env fuel parent.source with
  | none => none
  | some (.error e) => some ([], .error e)
  | some (.ok source) =>
    match backend.preprocess source parent.basePath env.name with
    | .error e => some ([Call.preprocess source parent.basePath env.name], .error e)
    | .ok newSource =>
      if parent.type = parent.Type_Vertex then
        match backend.createVertexProgram env.name parent.profile newSource
            backend.currentLanguage with
        | .error e =>
          some ([Call.preprocess source parent.basePath env.name,
            Call.createVertexProgram env.name parent.profile newSource
              backend.currentLanguage], .error e)
        | .ok program =>
          some ([Call.preprocess source parent.basePath env.name,
            Call.createVertexProgram env.name parent.profile newSource
              backend.currentLanguage], .ok (finish env.name program))
      else if parent.type = parent.Type_Fragment then
        match backend.createFragmentProgram env.name parent.profile newSource
            backend.currentLanguage with
        | .error e =>
          some ([Call.preprocess source parent.basePath env.name,
            Call.createFragmentProgram env.name parent.profile newSource
              backend.currentLanguage], .error e)
        | .ok program =>
          some ([Call.preprocess source parent.basePath env.name,
            Call.createFragmentProgram env.name parent.profile newSource
              backend.currentLanguage], .ok (finish env.name program))
      else some ([Call.preprocess source parent.basePath env.name], .error .assertionFailed)

/-- A vertex shader set for the examples. -/
def exampleSet (source : Str) : ShaderSet where
  source := source
  type := 0
  basePath := "shaders/".toList
  profile := "vs_2_0".toList
  Type_Vertex := 0
  Type_Fragment := 1

/-- A backend for the examples: the preprocessor returns its input and both
programs come back as not supported. -/
def exampleBackend : Backend where
  preprocess := fun source _ _ => .ok source
  currentLanguage := 0
  createVertexProgram := fun _ _ _ _ => .ok { supported := false }
  createFragmentProgram := fun _ _ _ _ => .ok { supported := false }

/-- The text `t0 @shPropertyBool(p1) t1 ... @shPropertyBool(pn) tn` for the
items `(p1, b1, t1), ..., (pn, bn, tn)`. -/
def withDirectives (t0 : Str) : List (Str × Bool × Str) → Str
  | [] => t0
  | (p, _, t) :: rest => t0 ++ "@shPropertyBool(".toList ++ p ++ [')'] ++ withDirectives t rest

/-- The text `t0 b1 t1 ... bn tn` for the items `(p1, b1, t1), ..., (pn, bn,
tn)`, each `bi` written as `"1"` or `"0"`. -/
def withLiterals (t0 : Str) : List (Str × Bool × Str) → Str
  | [] => t0
  | (_, b, t) :: rest =>
    t0 ++ (if b then "1".toList else "0".toList) ++ withLiterals t rest

/-- An environment whose string property `count` is `3`. -/
def countEnv : Env where
  name := "road".toList
  getPropertyBool := fun _ => .error (.runtimeError "no property".toList)
  getPropertyString := fun n =>
    if n = "count".toList then .ok "3".toList
    else .error (.runtimeError "no property".toList)
  globalSettings := fun _ => none

/-- The measure that shows the global-setting pass terminates: the length of
the text, and two more when the first marker is at index 0 and the text has no
`)` (the one case in which a replacement makes the text longer). -/
def settingMeasure (s : Str) : Nat :=
  s.length + (if find s mGlobalSetting 0 = 0 ∧ find s [')'] 0 = npos then 2 else 0)

theorem addSz_eq (a b : Nat) (h : a + b < 2 ^ 64) : addSz a b = a + b := by
  unfold addSz; omega

theorem subSz_eq (a b : Nat) (hb : b ≤ a) (ha : a < 2 ^ 64) : subSz a b = a - b := by
  unfold subSz; omega

theorem addSz_npos_one : addSz npos 1 = 0 := by decide

/-! ## Facts about `find` -/

theorem findAux_append_left (pat A B : Str) (i : Nat)
    (h : ∀ q, q < A.length → ¬ pat <+: (A ++ B).drop q) :
    findAux pat (A ++ B) i = findAux pat B (i + A.length) := by
  induction A generalizing i with
  | nil => simp
  | cons a A ih =>
    have h0 : ¬ pat <+: a :: (A ++ B) := by simpa using h 0 (by simp)
    have hrest : ∀ q, q < A.length → ¬ pat <+: (A ++ B).drop q := by
      intro q hq
      simpa using h (q + 1) (by simpa using hq)
    have hb : pat.isPrefixOf (a :: (A ++ B)) = false := by
      cases hp : pat.isPrefixOf (a :: (A ++ B)) with
      | false => rfl
      | true => exact absurd (List.isPrefixOf_iff_prefix.mp hp) h0
    rw [List.cons_append]
    show (if pat.isPrefixOf (a :: (A ++ B)) = true then i else findAux pat (A ++ B) (i + 1)) = _
    rw [hb, if_neg Bool.false_ne_true, ih (i + 1) hrest, List.length_cons]
    congr 1
    omega

theorem findAux_at_occurrence (pat B : Str) (i : Nat) (h : pat <+: B) :
    findAux pat B i = i := by
  cases B with
  | nil =>
    have : pat = [] := List.prefix_nil.mp h
    simp [findAux, this]
  | cons b B =>
    have hb : pat.isPrefixOf (b :: B) = true := List.isPrefixOf_iff_prefix.mpr h
    simp [findAux, hb]

theorem not_prefix_drop_of_not_mem (c : Char) (p A B : Str) (hc : c ∉ A) :
    ∀ q, q < A.length → ¬ (c :: p) <+: (A ++ B).drop q := by
  intro q hq hpre
  rw [List.drop_append_of_le_length (Nat.le_of_lt hq), List.drop_eq_getElem_cons hq] at hpre
  simp only [List.cons_append, List.cons_prefix_cons] at hpre
  exact hc (hpre.1 ▸ List.getElem_mem _)

theorem findAux_skip (c : Char) (p A B : Str) (i : Nat) (hc : c ∉ A) :
    findAux (c :: p) (A ++ B) i = findAux (c :: p) B (i + A.length) :=
  findAux_append_left _ _ _ _ (not_prefix_drop_of_not_mem c p A B hc)

theorem findAux_absent (pat s : Str) (i : Nat) (h : ¬ pat <:+: s) :
    findAux pat s i = npos := by
  induction s generalizing i with
  | nil =>
    have : pat ≠ [] := by
      intro hp; exact h (hp ▸ List.nil_infix)
    simp [findAux, this]
  | cons a s ih =>
    have hb : pat.isPrefixOf (a :: s) = false := by
      cases hp : pat.isPrefixOf (a :: s) with
      | false => rfl
      | true => exact absurd (List.isPrefixOf_iff_prefix.mp hp).isInfix h
    have hs : ¬ pat <:+: s := fun hi => h (hi.trans (List.suffix_cons a s).isInfix)
    simp [findAux, hb, ih (i + 1) hs]

theorem findAux_le_of_occurs (pat s : Str) (i : Nat) (h : pat <:+: s) :
    findAux pat s i ≤ i + s.length := by
  induction s generalizing i with
  | nil =>
    have : pat = [] := List.infix_nil.mp h
    simp [findAux, this]
  | cons a s ih =>
    simp only [findAux]
    split
    · omega
    · rename_i hb
      have hnp : ¬ pat <+: a :: s := fun hp => hb (List.isPrefixOf_iff_prefix.mpr hp)
      have hs : pat <:+: s := by
        rcases List.infix_cons_iff.mp h with h1 | h1
        · exact absurd h1 hnp
        · exact h1
      have := ih (i + 1) hs
      simp only [List.length_cons]
      omega

/-- When `find` from the start returns `npos` on a string shorter than `npos`,
the pattern does not occur in it. -/
theorem absent_of_find_eq_npos (pat s : Str) (hlen : s.length < npos)
    (h : find s pat 0 = npos) : ¬ pat <:+: s := by
  intro hi
  have := findAux_le_of_occurs pat s 0 hi
  simp only [find, Nat.not_lt_zero, if_false, List.drop_zero] at h
  omega

/-- A pattern that does not occur in the string is not found, from any
position. -/
theorem find_eq_npos_of_absent (pat s : Str) (pos : Nat) (h : ¬ pat <:+: s) :
    find s pat pos = npos := by
  unfold find
  split
  · rfl
  · exact findAux_absent _ _ _ (fun hi => h (hi.trans (List.drop_suffix pos s).isInfix))

theorem find_zero (pat s : Str) : find s pat 0 = findAux pat s 0 := by
  simp [find]

theorem find_append_at (pat A B : Str) :
    find (A ++ B) pat A.length = findAux pat B A.length := by
  simp [find]

/-! ## Facts about `substr`, `replace` and a directive inside a text -/

theorem find_mid (pat A B C : Str) (p : Nat) (hp : p = A.length)
    (hB : ∀ q, q < B.length → ¬ pat <+: (B ++ C).drop q) (hC : pat <+: C) :
    find (A ++ (B ++ C)) pat p = A.length + B.length := by
  subst hp
  rw [find_append_at, findAux_append_left _ _ _ _ hB, findAux_at_occurrence _ _ _ hC]

theorem find_mid_char (c : Char) (A B C : Str) (p : Nat) (hp : p = A.length) (hB : c ∉ B) :
    find (A ++ (B ++ c :: C)) [c] p = A.length + B.length :=
  find_mid _ _ _ _ _ hp (not_prefix_drop_of_not_mem c [] B (c :: C) hB)
    (by simp [List.cons_prefix_cons])

theorem substr_mid (A B C : Str) (p n : Nat) (hp : p = A.length) (hn : n = B.length) :
    substr (A ++ (B ++ C)) p n = .ok B := by
  subst hp hn
  simp [substr]

theorem replace_mid (A B C v : Str) (p n : Nat) (hp : p = A.length) (hn : n = B.length) :
    replace (A ++ (B ++ C)) p n v = .ok (A ++ v ++ C) := by
  subst hp hn
  simp [replace]

/-- The first occurrence of a marker that starts with `@` in a text whose part
before the marker has no `@`. -/
theorem find_marker_first (m pre rest : Str) (hpre : '@' ∉ pre) (hm : ('@' :: m) <+: rest) :
    find (pre ++ rest) ('@' :: m) 0 = pre.length := by
  rw [find_zero, findAux_skip _ _ _ _ _ hpre, findAux_at_occurrence _ _ _ hm]
  simp

/-- What the source computes from a directive `@cmd(args)` that sits at index
`pre.length`: the indices of its parentheses, the command name, the argument
text, and the text after the replacement of the directive. -/
theorem directive_parse (pre cmd args post : Str)
    (hlen : (pre ++ directive cmd args ++ post).length < npos)
    (hc1 : '(' ∉ cmd) (hc2 : ')' ∉ cmd) (ha : ')' ∉ args) :
    find (pre ++ directive cmd args ++ post) ['('] pre.length = pre.length + 1 + cmd.length ∧
    find (pre ++ directive cmd args ++ post) [')'] pre.length
      = pre.length + 2 + cmd.length + args.length ∧
    substr (pre ++ directive cmd args ++ post) (addSz pre.length 1)
      (subSz (pre.length + 1 + cmd.length) (addSz pre.length 1)) = .ok cmd ∧
    substr (pre ++ directive cmd args ++ post) (addSz (pre.length + 1 + cmd.length) 1)
      (subSz (pre.length + 2 + cmd.length + args.length)
        (addSz (pre.length + 1 + cmd.length) 1)) = .ok args ∧
    ∀ v, replace (pre ++ directive cmd args ++ post) pre.length
      (subSz (addSz (pre.length + 2 + cmd.length + args.length) 1) pre.length) v
        = .ok (pre ++ v ++ post) := by
  have hl : pre.length + cmd.length + args.length + post.length + 3 < 2 ^ 64 - 1 := by
    simp [directive, npos] at hlen
    omega
  refine ⟨?_, ?_, ?_, ?_, ?_⟩
  · have e : pre ++ directive cmd args ++ post
        = pre ++ (('@' :: cmd) ++ '(' :: (args ++ ')' :: post)) := by simp [directive]
    rw [e, find_mid_char _ _ _ _ _ rfl (by simp [hc1])]
    simp; omega
  · have e : pre ++ directive cmd args ++ post
        = pre ++ (('@' :: cmd ++ '(' :: args) ++ ')' :: post) := by simp [directive]
    rw [e, find_mid_char _ _ _ _ _ rfl (by simp [hc2, ha])]
    simp; omega
  · have e : pre ++ directive cmd args ++ post
        = (pre ++ ['@']) ++ (cmd ++ ('(' :: args ++ ')' :: post)) := by simp [directive]
    rw [e]
    apply substr_mid
    · rw [addSz_eq _ _ (by omega)]; simp
    · rw [addSz_eq _ _ (by omega), subSz_eq _ _ (by omega) (by omega)]; omega
  · have e : pre ++ directive cmd args ++ post
        = (pre ++ '@' :: cmd ++ ['(']) ++ (args ++ (')' :: post)) := by simp [directive]
    rw [e]
    apply substr_mid
    · rw [addSz_eq _ _ (by omega)]; simp; omega
    · rw [addSz_eq _ _ (by omega), subSz_eq _ _ (by omega) (by omega)]; omega
  · intro v
    have e : pre ++ directive cmd args ++ post
        = pre ++ (directive cmd args ++ post) := by simp
    rw [e]
    apply replace_mid
    · rfl
    · rw [addSz_eq _ _ (by omega), subSz_eq _ _ (by omega) (by omega)]
      simp [directive]; omega

theorem propertyStep_bool (env : Env) (pre P post : Str)
    (hlen : (pre ++ directive "shPropertyBool".toList P ++ post).length < npos)
    (hfirst : find (pre ++ directive "shPropertyBool".toList P ++ post) mProperty 0 = pre.length)
    (hP : ')' ∉ P) :
    propertyStep env (pre ++ directive "shPropertyBool".toList P ++ post)
      = match env.getPropertyBool P with
        | .error e => .error e
        | .ok b => .ok (some (pre ++ boolLit b ++ post)) := by
  obtain ⟨h1, h2, h3, h4, h5⟩ := directive_parse pre "shPropertyBool".toList P post hlen
    (by decide) (by decide) hP
  have hne : pre.length ≠ npos := by
    simp at hlen; omega
  unfold propertyStep
  simp only [hfirst, if_neg hne, h1, h2, h3, h4, h5, if_true]
  cases env.getPropertyBool P <;> rfl

theorem propertyStep_string (env : Env) (pre P post : Str)
    (hlen : (pre ++ directive "shPropertyString".toList P ++ post).length < npos)
    (hfirst : find (pre ++ directive "shPropertyString".toList P ++ post) mProperty 0
      = pre.length)
    (hP : ')' ∉ P) :
    propertyStep env (pre ++ directive "shPropertyString".toList P ++ post)
      = match env.getPropertyString P with
        | .error e => .error e
        | .ok v => .ok (some (pre ++ v ++ post)) := by
  obtain ⟨h1, h2, h3, h4, h5⟩ := directive_parse pre "shPropertyString".toList P post hlen
    (by decide) (by decide) hP
  have hne : pre.length ≠ npos := by
    simp at hlen; omega
  have hd : ¬ ("shPropertyString".toList = "shPropertyBool".toList) := by decide
  unfold propertyStep
  simp only [hfirst, if_neg hne, h1, h2, h3, h4, h5, if_true, if_neg hd]

theorem skipSpacesAux_spaces (k : Nat) (R : Str) (i : Nat) (hR : R.head? ≠ some ' ')
    (hi : i + k < 2 ^ 64) : skipSpacesAux (spaces k ++ R) i = i + k := by
  induction k generalizing i with
  | zero =>
    cases R with
    | nil => rfl
    | cons r R =>
      have : r ≠ ' ' := by simpa using hR
      simp [spaces, skipSpacesAux, this]
  | succ k ih =>
    have e : spaces (k + 1) ++ R = ' ' :: (spaces k ++ R) := by
      simp [spaces, List.replicate_succ]
    rw [e]
    show (if ' ' = ' ' then skipSpacesAux (spaces k ++ R) (addSz i 1) else i) = _
    rw [if_pos rfl, addSz_eq _ _ (by omega), ih _ (by omega)]
    omega

theorem head_append_cons_ne (V post : Str) (c : Char) (hV : V.head? ≠ some ' ')
    (hc : c ≠ ' ') : (V ++ c :: post).head? ≠ some ' ' := by
  cases V with
  | nil => simpa using hc
  | cons v V => simpa using hV

/-- What the source computes from a directive `@cmd(P,` spaces `V)` with a
comma: the index of the comma, the index after the spaces, the name before
the comma and the literal after the spaces. -/
theorem equal_parse (pre cmd P V post : Str) (k : Nat)
    (hlen : (pre ++ directive cmd (P ++ ',' :: spaces k ++ V) ++ post).length < npos)
    (hc : ',' ∉ cmd) (hP : ',' ∉ P) (hV : V.head? ≠ some ' ') :
    find (pre ++ directive cmd (P ++ ',' :: spaces k ++ V) ++ post) [','] pre.length
      = pre.length + 2 + cmd.length + P.length ∧
    skipSpaces (pre ++ directive cmd (P ++ ',' :: spaces k ++ V) ++ post)
      (addSz (pre.length + 2 + cmd.length + P.length) 1)
      = pre.length + 3 + cmd.length + P.length + k ∧
    substr (pre ++ directive cmd (P ++ ',' :: spaces k ++ V) ++ post)
      (addSz (pre.length + 1 + cmd.length) 1)
      (subSz (pre.length + 2 + cmd.length + P.length)
        (addSz (pre.length + 1 + cmd.length) 1)) = .ok P ∧
    substr (pre ++ directive cmd (P ++ ',' :: spaces k ++ V) ++ post)
      (pre.length + 3 + cmd.length + P.length + k)
      (subSz (pre.length + 2 + cmd.length + (P ++ ',' :: spaces k ++ V).length)
        (pre.length + 3 + cmd.length + P.length + k)) = .ok V := by
  have hl : pre.length + cmd.length + P.length + k + V.length + post.length + 4
      < 2 ^ 64 - 1 := by
    simp [directive, npos, spaces] at hlen
    omega
  refine ⟨?_, ?_, ?_, ?_⟩
  · have e : pre ++ directive cmd (P ++ ',' :: spaces k ++ V) ++ post
        = pre ++ (('@' :: cmd ++ '(' :: P) ++ ',' :: (spaces k ++ V ++ ')' :: post)) := by
      simp [directive]
    rw [e, find_mid_char _ _ _ _ _ rfl (by simp [hc, hP])]
    simp; omega
  · have e : pre ++ directive cmd (P ++ ',' :: spaces k ++ V) ++ post
        = (pre ++ '@' :: cmd ++ '(' :: P ++ [',']) ++ (spaces k ++ (V ++ ')' :: post)) := by
      simp [directive]
    have hpos : addSz (pre.length + 2 + cmd.length + P.length) 1
        = (pre ++ '@' :: cmd ++ '(' :: P ++ [',']).length := by
      rw [addSz_eq _ _ (by omega)]; simp; omega
    rw [e, hpos]
    unfold skipSpaces
    rw [List.drop_left, skipSpacesAux_spaces _ _ _ (head_append_cons_ne _ _ _ hV (by decide))
      (by simp; omega)]
    simp; omega
  · have e : pre ++ directive cmd (P ++ ',' :: spaces k ++ V) ++ post
        = (pre ++ '@' :: cmd ++ ['(']) ++ (P ++ (',' :: spaces k ++ V ++ ')' :: post)) := by
      simp [directive]
    rw [e]
    apply substr_mid
    · rw [addSz_eq _ _ (by omega)]; simp; omega
    · rw [addSz_eq _ _ (by omega), subSz_eq _ _ (by omega) (by omega)]; omega
  · have e : pre ++ directive cmd (P ++ ',' :: spaces k ++ V) ++ post
        = (pre ++ '@' :: cmd ++ '(' :: P ++ ',' :: spaces k) ++ (V ++ (')' :: post)) := by
      simp [directive]
    rw [e]
    apply substr_mid
    · simp [spaces]; omega
    · rw [subSz_eq _ _ (by simp [spaces]; omega) (by simp [spaces]; omega)]
      simp [spaces]; omega

theorem propertyStep_equal (env : Env) (pre P V post : Str) (k : Nat)
    (hlen : (pre ++ directive "shPropertyEqual".toList (P ++ ',' :: spaces k ++ V)
      ++ post).length < npos)
    (hfirst : find (pre ++ directive "shPropertyEqual".toList (P ++ ',' :: spaces k ++ V)
      ++ post) mProperty 0 = pre.length)
    (hP : ',' ∉ P) (hP2 : ')' ∉ P) (hV : V.head? ≠ some ' ') (hV2 : ')' ∉ V) :
    propertyStep env (pre ++ directive "shPropertyEqual".toList (P ++ ',' :: spaces k ++ V)
        ++ post)
      = match env.getPropertyString P with
        | .error e => .error e
        | .ok v => .ok (some (pre ++ boolLit (decide (v = V)) ++ post)) := by
  obtain ⟨h1, h2, h3, _, h5⟩ := directive_parse pre "shPropertyEqual".toList
    (P ++ ',' :: spaces k ++ V) post hlen
    (by decide) (by decide) (by simp [hP2, hV2, spaces])
  obtain ⟨g1, g2, g3, g4⟩ := equal_parse pre "shPropertyEqual".toList P V post k hlen
    (by decide) hP hV
  have hne : pre.length ≠ npos := by
    simp at hlen; omega
  have hd1 : ¬ ("shPropertyEqual".toList = "shPropertyBool".toList) := by decide
  have hd2 : ¬ ("shPropertyEqual".toList = "shPropertyString".toList) := by decide
  unfold propertyStep
  simp only [hfirst, if_neg hne, h1, h2, h3, h5, g1, g2, g3, g4, if_true, if_neg hd1,
    if_neg hd2]
  cases env.getPropertyString P <;> rfl

theorem globalSettingStep_bool (env : Env) (pre S post : Str)
    (hlen : (pre ++ directive "shGlobalSettingBool".toList S ++ post).length < npos)
    (hfirst : find (pre ++ directive "shGlobalSettingBool".toList S ++ post) mGlobalSetting 0
      = pre.length)
    (hS : ')' ∉ S) :
    globalSettingStep env (pre ++ directive "shGlobalSettingBool".toList S ++ post)
      = match env.globalSettings S with
        | none => .error .invalidIterator
        | some _ =>
          .error (.runtimeError (unknownCommand "shGlobalSettingBool".toList env.name)) := by
  obtain ⟨h1, h2, h3, h4, h5⟩ := directive_parse pre "shGlobalSettingBool".toList S post hlen
    (by decide) (by decide) hS
  have hne : pre.length ≠ npos := by
    simp at hlen; omega
  have hd : ¬ ("shGlobalSettingBool".toList = "shGlobalSettingEqual".toList) := by decide
  unfold globalSettingStep
  simp only [hfirst, if_neg hne, h1, h2, h3, h4, h5, if_true, if_neg hd]
  cases env.globalSettings S <;> rfl

theorem globalSettingStep_equal (env : Env) (pre S V post : Str) (k : Nat)
    (hlen : (pre ++ directive "shGlobalSettingEqual".toList (S ++ ',' :: spaces k ++ V)
      ++ post).length < npos)
    (hfirst : find (pre ++ directive "shGlobalSettingEqual".toList (S ++ ',' :: spaces k ++ V)
      ++ post) mGlobalSetting 0 = pre.length)
    (hS : ',' ∉ S) (hS2 : ')' ∉ S) (hV : V.head? ≠ some ' ') (hV2 : ')' ∉ V) :
    globalSettingStep env (pre ++ directive "shGlobalSettingEqual".toList
        (S ++ ',' :: spaces k ++ V) ++ post)
      = match env.globalSettings S with
        | none => .error .invalidIterator
        | some v => .ok (some (pre ++ boolLit (decide (v = V)) ++ post)) := by
  obtain ⟨h1, h2, h3, _, h5⟩ := directive_parse pre "shGlobalSettingEqual".toList
    (S ++ ',' :: spaces k ++ V) post hlen
    (by decide) (by decide) (by simp [hS2, hV2, spaces])
  obtain ⟨g1, g2, g3, g4⟩ := equal_parse pre "shGlobalSettingEqual".toList S V post k hlen
    (by decide) hS hV
  have hne : pre.length ≠ npos := by
    simp at hlen; omega
  have hd : ¬ ("shGlobalSettingEqual".toList = "shGlobalSettingBool".toList) := by decide
  unfold globalSettingStep
  simp only [hfirst, if_neg hne, h1, h2, h3, h5, g1, g2, g3, g4, if_true, if_neg hd]
  cases env.globalSettings S <;> rfl

/-! ## Facts about the loops -/

theorem iterate_done (step : Str → Except Err (Option Str)) (fuel : Nat) (s : Str)
    (h : step s = .ok none) : iterate step (fuel + 1) s = some (.ok s) := by
  simp [iterate, h]

theorem iterate_next (step : Str → Except Err (Option Str)) (fuel : Nat) (s t : Str)
    (h : step s = .ok (some t)) : iterate step (fuel + 1) s = iterate step fuel t := by
  simp [iterate, h]

theorem iterate_error (step : Str → Except Err (Option Str)) (fuel : Nat) (s : Str) (e : Err)
    (h : step s = .error e) : iterate step (fuel + 1) s = some (.error e) := by
  simp [iterate, h]

theorem propertyStep_none (env : Env) (s : Str) (h : find s mProperty 0 = npos) :
    propertyStep env s = .ok none := by
  simp [propertyStep, h]

theorem globalSettingStep_none (env : Env) (s : Str) (h : find s mGlobalSetting 0 = npos) :
    globalSettingStep env s = .ok none := by
  simp [globalSettingStep, h]

theorem foreachStep_none (s : Str) (h : find s mForeach 0 = npos) :
    foreachStep s = .ok none := by
  simp [foreachStep, h]

theorem absent_of_not_mem (c : Char) (m s : Str) (h : c ∉ s) : ¬ (c :: m) <:+: s := by
  intro hi
  exact h (hi.subset (List.mem_cons_self c m))

/-- The global-setting pass and the foreach pass leave a text without their
markers as it is. -/
theorem expand_of_propertyPass (env : Env) (fuel : Nat) (source s : Str)
    (hp : propertyPass env (fuel + 1) source = some (.ok s))
    (hg : ¬ mGlobalSetting <:+: s) (hf : ¬ mForeach <:+: s) :
    expand env (fuel + 1) source = some (.ok s) := by
  have h2 : globalSettingPass env (fuel + 1) s = some (.ok s) :=
    iterate_done _ _ _ (globalSettingStep_none env s (find_eq_npos_of_absent _ _ _ hg))
  have h3 : foreachPass (fuel + 1) s = some (.ok s) :=
    iterate_done _ _ _ (foreachStep_none s (find_eq_npos_of_absent _ _ _ hf))
  simp [expand, hp, h2, h3]

theorem expand_no_marker (env : Env) (fuel : Nat) (s : Str)
    (hp : ¬ mProperty <:+: s) (hg : ¬ mGlobalSetting <:+: s) (hf : ¬ mForeach <:+: s) :
    expand env (fuel + 1) s = some (.ok s) :=
  expand_of_propertyPass env fuel s s
    (iterate_done _ _ _ (propertyStep_none env s (find_eq_npos_of_absent _ _ _ hp))) hg hf

theorem expand_no_at (env : Env) (fuel : Nat) (s : Str) (h : '@' ∉ s) :
    expand env (fuel + 1) s = some (.ok s) :=
  expand_no_marker env fuel s (absent_of_not_mem _ _ _ h) (absent_of_not_mem _ _ _ h)
    (absent_of_not_mem _ _ _ h)

theorem boolLit_no_at (b : Bool) : '@' ∉ boolLit b := by
  cases b <;> decide

theorem two_le_fuel (fuel : Nat) (h : 2 ≤ fuel) : ∃ f, fuel = f + 1 + 1 :=
  ⟨fuel - 2, by omega⟩

theorem expand_of_propertyPass_error (env : Env) (fuel : Nat) (source : Str) (e : Err)
    (hp : propertyPass env fuel source = some (.error e)) :
    expand env fuel source = some (.error e) := by
  unfold expand
  rw [hp]

/-- The property pass on a text with one `shPropertyBool` directive between
two texts without `@`. -/
theorem propertyPass_bool (env : Env) (pre P post : Str) (fuel : Nat)
    (hlen : (pre ++ directive "shPropertyBool".toList P ++ post).length < npos)
    (hpre : '@' ∉ pre) (hpost : '@' ∉ post) (hP : ')' ∉ P) :
    propertyPass env (fuel + 1 + 1) (pre ++ directive "shPropertyBool".toList P ++ post)
      = match env.getPropertyBool P with
        | .error e => some (.error e)
        | .ok b => some (.ok (pre ++ boolLit b ++ post)) := by
  have hfirst : find (pre ++ directive "shPropertyBool".toList P ++ post) mProperty 0
      = pre.length := by
    rw [List.append_assoc]
    exact find_marker_first _ _ _ hpre (List.isPrefixOf_iff_prefix.mp (by rfl))
  have hstep := propertyStep_bool env pre P post hlen hfirst hP
  cases hb : env.getPropertyBool P with
  | error e =>
    rw [hb] at hstep
    exact iterate_error _ _ _ _ hstep
  | ok b =>
    rw [hb] at hstep
    have hno : '@' ∉ pre ++ boolLit b ++ post := by
      simp [hpre, hpost, boolLit_no_at]
    show iterate _ _ _ = _
    rw [iterate_next _ _ _ _ hstep]
    exact iterate_done _ _ _ (propertyStep_none env _
      (find_eq_npos_of_absent _ _ _ (absent_of_not_mem _ _ _ hno)))

/-- C4: for a property name `P` without `)`, the expansion of
`@shPropertyBool(P)` is `"1"` when the resolver gives `true` for `P` and `"0"`
when it gives `false`; the resolver is asked for exactly `P`, since the result
depends on the resolver through its answer for `P` alone (an error of the
resolver for `P` is the result of the expansion). -/
theorem C4_shPropertyBool (env : Env) (P : Str) (fuel : Nat)
    (hP : ')' ∉ P) (hlen : (directive "shPropertyBool".toList P).length < npos)
    (hfuel : 2 ≤ fuel) :
    (∀ b, env.getPropertyBool P = .ok b →
      expand env fuel (directive "shPropertyBool".toList P)
        = some (.ok (if b then "1".toList else "0".toList))) ∧
    (∀ e, env.getPropertyBool P = .error e →
      expand env fuel (directive "shPropertyBool".toList P) = some (.error e)) := by
  obtain ⟨f, rfl⟩ := two_le_fuel fuel hfuel
  have hpass := propertyPass_bool env [] P [] f (by simpa using hlen) (by simp) (by simp) hP
  simp only [List.nil_append, List.append_nil] at hpass
  constructor
  · intro b hb
    rw [hb] at hpass
    have := expand_of_propertyPass env (f + 1) _ _ hpass
      (absent_of_not_mem _ _ _ (boolLit_no_at b)) (absent_of_not_mem _ _ _ (boolLit_no_at b))
    rw [this]
    cases b <;> rfl
  · intro e he
    rw [he] at hpass
    exact expand_of_propertyPass_error env _ _ e hpass

theorem C4_shPropertyBool_witness :
    expand exampleEnv 2 "@shPropertyBool(useShadows)".toList = some (.ok "1".toList) :=
  (C4_shPropertyBool exampleEnv "useShadows".toList 2 (by decide) (by decide) (by decide)).1
    true (by decide)

/-- A single replacement by the property pass that leaves no `@` in the text
ends the expansion with that text. -/
theorem expand_single_property (env : Env) (fuel : Nat) (source t : Str)
    (hstep : propertyStep env source = .ok (some t)) (ht : '@' ∉ t) :
    expand env (fuel + 1 + 1) source = some (.ok t) := by
  apply expand_of_propertyPass env (fuel + 1) source t _ (absent_of_not_mem _ _ _ ht)
    (absent_of_not_mem _ _ _ ht)
  show iterate _ _ _ = _
  rw [iterate_next _ _ _ _ hstep]
  exact iterate_done _ _ _ (propertyStep_none env _
    (find_eq_npos_of_absent _ _ _ (absent_of_not_mem _ _ _ ht)))

theorem expand_property_error (env : Env) (fuel : Nat) (source : Str) (e : Err)
    (hstep : propertyStep env source = .error e) :
    expand env (fuel + 1) source = some (.error e) :=
  expand_of_propertyPass_error env _ _ e (iterate_error _ _ _ _ hstep)

/-- C3: in a text `pre @shPropertyEqual(P,` spaces `V) post`, where `pre` and
`post` have no `@`, `P` has no `,` and no `)`, and `V` has no `)` and does not
begin with a space, the expansion replaces the directive by `"1"` when the
string the resolver returns for `P` equals `V` and by `"0"` otherwise; the
spaces after the comma are not part of the compared literal and `V` is
compared as it stands. -/
theorem C3_shPropertyEqual (env : Env) (pre P V post v : Str) (k fuel : Nat)
    (hpre : '@' ∉ pre) (hpost : '@' ∉ post) (hP1 : ',' ∉ P) (hP2 : ')' ∉ P)
    (hV1 : ')' ∉ V) (hV2 : V.head? ≠ some ' ')
    (hlen : (pre ++ "@shPropertyEqual(".toList ++ P ++ [','] ++ spaces k ++ V ++ [')']
      ++ post).length < npos)
    (hfuel : 2 ≤ fuel) (hv : env.getPropertyString P = .ok v) :
    expand env fuel
        (pre ++ "@shPropertyEqual(".toList ++ P ++ [','] ++ spaces k ++ V ++ [')'] ++ post)
      = some (.ok (pre ++ (if v = V then "1".toList else "0".toList) ++ post)) := by
  obtain ⟨f, rfl⟩ := two_le_fuel fuel hfuel
  have e : pre ++ "@shPropertyEqual(".toList ++ P ++ [','] ++ spaces k ++ V ++ [')'] ++ post
      = pre ++ directive "shPropertyEqual".toList (P ++ ',' :: spaces k ++ V) ++ post := by
    simp [directive]
  rw [e] at hlen ⊢
  have hfirst : find (pre ++ directive "shPropertyEqual".toList (P ++ ',' :: spaces k ++ V)
      ++ post) mProperty 0 = pre.length := by
    rw [List.append_assoc]
    exact find_marker_first _ _ _ hpre (List.isPrefixOf_iff_prefix.mp (by rfl))
  have hstep := propertyStep_equal env pre P V post k hlen hfirst hP1 hP2 hV2 hV1
  rw [hv] at hstep
  have hlit : boolLit (decide (v = V)) = if v = V then "1".toList else "0".toList := by
    by_cases h : v = V <;> simp [boolLit, h]
  rw [← hlit]
  apply expand_single_property env f _ _ hstep
  simp [hpre, hpost, boolLit_no_at]

theorem C3_shPropertyEqual_witness :
    expand exampleEnv 2 "float q = @shPropertyEqual(quality,  high);".toList
      = some (.ok "float q = 1;".toList) :=
  C3_shPropertyEqual exampleEnv "float q = ".toList "quality".toList "high".toList ";".toList
    "high".toList 2 2 (by decide) (by decide) (by decide) (by decide) (by decide) (by decide)
    (by decide) (by decide) (by decide)

theorem expand_of_passes (env : Env) (fuel : Nat) (source s1 s2 : Str)
    (r : Option (Except Err Str))
    (h1 : propertyPass env fuel source = some (.ok s1))
    (h2 : globalSettingPass env fuel s1 = some (.ok s2))
    (h3 : foreachPass fuel s2 = r) : expand env fuel source = r := by
  unfold expand
  rw [h1]
  simp only []
  rw [h2]
  exact h3

/-- A single replacement by the global-setting pass, in a text without
property markers, that leaves no `@` in the text ends the expansion with that
text. -/
theorem expand_single_global (env : Env) (fuel : Nat) (source t : Str)
    (hp : ¬ mProperty <:+: source)
    (hstep : globalSettingStep env source = .ok (some t)) (ht : '@' ∉ t) :
    expand env (fuel + 1 + 1) source = some (.ok t) := by
  apply expand_of_passes env _ source source t
  · exact iterate_done _ _ _ (propertyStep_none env _ (find_eq_npos_of_absent _ _ _ hp))
  · show iterate _ _ _ = _
    rw [iterate_next _ _ _ _ hstep]
    exact iterate_done _ _ _ (globalSettingStep_none env _
      (find_eq_npos_of_absent _ _ _ (absent_of_not_mem _ _ _ ht)))
  · exact iterate_done _ _ _ (foreachStep_none _
      (find_eq_npos_of_absent _ _ _ (absent_of_not_mem _ _ _ ht)))

theorem expand_global_error (env : Env) (fuel : Nat) (source : Str) (e : Err)
    (hp : ¬ mProperty <:+: source) (hstep : globalSettingStep env source = .error e) :
    expand env (fuel + 1) source = some (.error e) := by
  have h1 : propertyPass env (fuel + 1) source = some (.ok source) :=
    iterate_done _ _ _ (propertyStep_none env _ (find_eq_npos_of_absent _ _ _ hp))
  have h2 : globalSettingPass env (fuel + 1) source = some (.error e) :=
    iterate_error _ _ _ _ hstep
  unfold expand
  rw [h1]
  simp only []
  rw [h2]

/-- A marker does not occur in a text that starts with `@`, has no other `@`
and does not start with the marker. -/
theorem absent_of_single_at (m rest : Str) (hrest : '@' ∉ rest)
    (hne : ¬ ('@' :: m) <+: ('@' :: rest)) : ¬ ('@' :: m) <:+: ('@' :: rest) := by
  intro hi
  rcases List.infix_cons_iff.mp hi with h | h
  · exact hne h
  · exact absent_of_not_mem _ _ _ hrest h

/-- C5: for a setting name `S` without `,`, `)` and `@` that is defined in the
global-settings map and a literal `V` without `)` and `@` that does not begin
with a space, the expansion of `@shGlobalSettingEqual(S,` spaces `V)` is `"1"`
when the stored string equals `V` and `"0"` otherwise. Moreover, with the
boolean property `useShadows` true and the setting `rendersystem` stored as
`opengl`, the text
`@shPropertyBool(useShadows) && @shGlobalSettingEqual(rendersystem, opengl)`
expands to `1 && 1`. -/
theorem C5_shGlobalSettingEqual (env : Env) (S V v : Str) (k fuel : Nat)
    (hS1 : ',' ∉ S) (hS2 : ')' ∉ S) (hS3 : '@' ∉ S)
    (hV1 : ')' ∉ V) (hV2 : '@' ∉ V) (hV3 : V.head? ≠ some ' ')
    (hlen : ("@shGlobalSettingEqual(".toList ++ S ++ [','] ++ spaces k ++ V ++ [')']).length
      < npos)
    (hfuel : 2 ≤ fuel) (hv : env.globalSettings S = some v) :
    expand env fuel ("@shGlobalSettingEqual(".toList ++ S ++ [','] ++ spaces k ++ V ++ [')'])
        = some (.ok (if v = V then "1".toList else "0".toList)) ∧
    (∀ env2 : Env, env2.getPropertyBool "useShadows".toList = .ok true →
      env2.globalSettings "rendersystem".toList = some "opengl".toList →
      expand env2 fuel
        "@shPropertyBool(useShadows) && @shGlobalSettingEqual(rendersystem, opengl)".toList
        = some (.ok "1 && 1".toList)) := by
  obtain ⟨f, rfl⟩ := two_le_fuel fuel hfuel
  constructor
  · have e : "@shGlobalSettingEqual(".toList ++ S ++ [','] ++ spaces k ++ V ++ [')']
        = [] ++ directive "shGlobalSettingEqual".toList (S ++ ',' :: spaces k ++ V) ++ [] := by
      simp [directive]
    rw [e] at hlen ⊢
    have hfirst : find ([] ++ directive "shGlobalSettingEqual".toList
        (S ++ ',' :: spaces k ++ V) ++ []) mGlobalSetting 0 = ([] : Str).length := by
      rw [List.append_assoc]
      exact find_marker_first _ _ _ (by simp) (List.isPrefixOf_iff_prefix.mp (by rfl))
    have hstep : globalSettingStep env ([] ++ directive "shGlobalSettingEqual".toList
        (S ++ ',' :: spaces k ++ V) ++ []) = .ok (some (boolLit (decide (v = V)))) := by
      have h := globalSettingStep_equal env [] S V [] k hlen hfirst hS1 hS2 hV3 hV1
      rw [hv] at h
      simpa using h
    have hlit : boolLit (decide (v = V)) = if v = V then "1".toList else "0".toList := by
      by_cases h : v = V <;> simp [boolLit, h]
    rw [← hlit]
    apply expand_single_global env f _ _ _ hstep (by simp [boolLit_no_at])
    have hrest : '@' ∉ "shGlobalSettingEqual".toList ++ '(' :: (S ++ ',' :: spaces k ++ V)
        ++ [')'] := by
      simp [hS3, hV2, spaces]
    have := absent_of_single_at "shProperty".toList _ hrest
      (fun h => by simp [List.cons_prefix_cons] at h)
    simpa [directive, mProperty] using this
  · intro env2 hb hg
    have hstep1 : propertyStep env2
        "@shPropertyBool(useShadows) && @shGlobalSettingEqual(rendersystem, opengl)".toList
        = .ok (some "1 && @shGlobalSettingEqual(rendersystem, opengl)".toList) := by
      have h := propertyStep_bool env2 [] "useShadows".toList
        " && @shGlobalSettingEqual(rendersystem, opengl)".toList (by decide) (by decide)
        (by decide)
      rw [hb] at h
      exact h
    have hstep2 : globalSettingStep env2
        "1 && @shGlobalSettingEqual(rendersystem, opengl)".toList
        = .ok (some "1 && 1".toList) := by
      have h := globalSettingStep_equal env2 "1 && ".toList "rendersystem".toList
        "opengl".toList [] 1 (by decide) (by decide) (by decide) (by decide) (by decide)
        (by decide)
      rw [hg] at h
      exact h
    apply expand_of_passes env2 _ _
      "1 && @shGlobalSettingEqual(rendersystem, opengl)".toList "1 && 1".toList
    · show iterate _ _ _ = _
      rw [iterate_next _ _ _ _ hstep1]
      exact iterate_done _ _ _ (propertyStep_none env2 _ (by decide))
    · show iterate _ _ _ = _
      rw [iterate_next _ _ _ _ hstep2]
      exact iterate_done _ _ _ (globalSettingStep_none env2 _ (by decide))
    · exact iterate_done _ _ _ (foreachStep_none _ (by decide))

theorem C5_shGlobalSettingEqual_witness :
    expand exampleEnv 2 "@shGlobalSettingEqual(rendersystem, opengl)".toList
      = some (.ok "1".toList) :=
  (C5_shGlobalSettingEqual exampleEnv "rendersystem".toList "opengl".toList "opengl".toList
    1 2 (by decide) (by decide) (by decide) (by decide) (by decide) (by decide) (by decide)
    (by decide) (by decide)).1

/-- C2, what the code does: for a setting name `S` without `)` and `@` that is
defined in the global-settings map, the expansion of `@shGlobalSettingBool(S)`
does not return `"1"` or `"0"`: it ends with the `runtime_error`
`unknown command "shGlobalSettingBool" in "name"`, whatever string is stored,
because the `else` that throws belongs to the `if` for `shGlobalSettingEqual`
alone. -/
theorem C2_shGlobalSettingBool_throws (env : Env) (S v : Str) (fuel : Nat)
    (hS1 : ')' ∉ S) (hS2 : '@' ∉ S)
    (hlen : ("@shGlobalSettingBool(".toList ++ S ++ [')']).length < npos)
    (hfuel : 1 ≤ fuel) (hv : env.globalSettings S = some v) :
    expand env fuel ("@shGlobalSettingBool(".toList ++ S ++ [')'])
      = some (.error (.runtimeError
          ("unknown command \"shGlobalSettingBool\" in \"".toList ++ env.name
            ++ "\"".toList))) := by
  obtain ⟨f, rfl⟩ : ∃ f, fuel = f + 1 := ⟨fuel - 1, by omega⟩
  have e : "@shGlobalSettingBool(".toList ++ S ++ [')']
      = [] ++ directive "shGlobalSettingBool".toList S ++ [] := by
    simp [directive]
  rw [e] at hlen ⊢
  have hfirst : find ([] ++ directive "shGlobalSettingBool".toList S ++ []) mGlobalSetting 0
      = ([] : Str).length := by
    rw [List.append_assoc]
    exact find_marker_first _ _ _ (by simp) (List.isPrefixOf_iff_prefix.mp (by rfl))
  have hstep := globalSettingStep_bool env [] S [] hlen hfirst hS1
  rw [hv] at hstep
  have hmsg : unknownCommand "shGlobalSettingBool".toList env.name
      = "unknown command \"shGlobalSettingBool\" in \"".toList ++ env.name ++ "\"".toList := by
    simp [unknownCommand]
  rw [← hmsg]
  apply expand_global_error env f _ _ _ hstep
  have hrest : '@' ∉ "shGlobalSettingBool".toList ++ '(' :: S ++ [')'] := by
    simp [hS2]
  have := absent_of_single_at "shProperty".toList _ hrest
    (fun h => by simp [List.cons_prefix_cons] at h)
  simpa [directive, mProperty] using this

theorem C2_shGlobalSettingBool_throws_witness :
    expand exampleEnv 1 "@shGlobalSettingBool(shadows)".toList
      = some (.error (.runtimeError
          "unknown command \"shGlobalSettingBool\" in \"terrain\"".toList)) :=
  C2_shGlobalSettingBool_throws exampleEnv "shadows".toList "true".toList 1 (by decide)
    (by decide) (by decide) (by decide) (by decide)

/-- More fuel does not change the result of a loop that has ended. -/
theorem iterate_mono (step : Str → Except Err (Option Str)) (fuel k : Nat) (s : Str)
    (r : Except Err Str) (h : iterate step fuel s = some r) :
    iterate step (fuel + k) s = some r := by
  induction fuel generalizing s with
  | zero => simp [iterate] at h
  | succ fuel ih =>
    rw [Nat.add_right_comm]
    cases hs : step s with
    | error e =>
      rw [iterate_error _ _ _ _ hs] at h ⊢
      exact h
    | ok o =>
      cases o with
      | none =>
        rw [iterate_done _ _ _ hs] at h ⊢
        exact h
      | some t =>
        rw [iterate_next _ _ _ _ hs] at h ⊢
        exact ih t h

/-- A loop has one result, whatever fuel it is given. -/
theorem iterate_unique (step : Str → Except Err (Option Str)) (f1 f2 : Nat) (s : Str)
    (r1 r2 : Except Err Str) (h1 : iterate step f1 s = some r1)
    (h2 : iterate step f2 s = some r2) : r1 = r2 := by
  have a := iterate_mono step f1 f2 s r1 h1
  have b := iterate_mono step f2 f1 s r2 h2
  rw [Nat.add_comm] at b
  rw [a] at b
  exact Option.some.inj b

/-- A loop whose step gives back the text it was given never ends. -/
theorem iterate_fixed (step : Str → Except Err (Option Str)) (s : Str)
    (h : step s = .ok (some s)) : ∀ fuel, iterate step fuel s = none := by
  intro fuel
  induction fuel with
  | zero => rfl
  | succ fuel ih => rw [iterate_next _ _ _ _ h, ih]

/-- C6, as stated, fails: with the string property `a` resolved to
`@shPropertyBool(b)` and `b` true, the property pass on `@shPropertyString(a)`
scans the replacement again and yields `1`, for no fuel the value of `a`; and
with `loop` resolved to `@shPropertyString(loop)` the pass on
`@shPropertyString(loop)` does not terminate. -/
theorem C6_rescan_counterexample :
    rescanEnv.getPropertyString "a".toList = .ok "@shPropertyBool(b)".toList ∧
    propertyPass rescanEnv 3 "@shPropertyString(a)".toList = some (.ok "1".toList) ∧
    (¬ ∃ fuel, propertyPass rescanEnv fuel "@shPropertyString(a)".toList
      = some (.ok "@shPropertyBool(b)".toList)) ∧
    rescanEnv.getPropertyString "loop".toList = .ok "@shPropertyString(loop)".toList ∧
    (¬ ∃ fuel r, propertyPass rescanEnv fuel "@shPropertyString(loop)".toList = some r) := by
  have h3 : propertyPass rescanEnv 3 "@shPropertyString(a)".toList = some (.ok "1".toList) := by
    decide
  refine ⟨rfl, h3, ?_, rfl, ?_⟩
  · rintro ⟨fuel, hf⟩
    have := iterate_unique _ _ _ _ _ _ hf h3
    exact absurd this (by decide)
  · rintro ⟨fuel, r, hf⟩
    have hfix : propertyStep rescanEnv "@shPropertyString(loop)".toList
        = .ok (some "@shPropertyString(loop)".toList) := by decide
    have := iterate_fixed _ _ hfix fuel
    rw [propertyPass, this] at hf
    exact absurd hf (by simp)

/-- C6, amended: for a property name `a` without `)` and a string `s` that the
resolver returns for `a` and that contains no `@shProperty`, the property pass
on `@shPropertyString(a)` terminates, after one replacement, and yields exactly
`s`. -/
theorem C6_shPropertyString_verbatim (env : Env) (a s : Str) (fuel : Nat)
    (ha : ')' ∉ a) (hs : ¬ "@shProperty".toList <:+: s)
    (hlen : ("@shPropertyString(".toList ++ a ++ [')']).length < npos)
    (hfuel : 2 ≤ fuel) (hv : env.getPropertyString a = .ok s) :
    propertyPass env fuel ("@shPropertyString(".toList ++ a ++ [')']) = some (.ok s) := by
  obtain ⟨f, rfl⟩ := two_le_fuel fuel hfuel
  have e : "@shPropertyString(".toList ++ a ++ [')']
      = [] ++ directive "shPropertyString".toList a ++ [] := by
    simp [directive]
  rw [e] at hlen ⊢
  have hfirst : find ([] ++ directive "shPropertyString".toList a ++ []) mProperty 0
      = ([] : Str).length := by
    rw [List.append_assoc]
    exact find_marker_first _ _ _ (by simp) (List.isPrefixOf_iff_prefix.mp (by rfl))
  have hstep : propertyStep env ([] ++ directive "shPropertyString".toList a ++ [])
      = .ok (some s) := by
    have h := propertyStep_string env [] a [] hlen hfirst ha
    rw [hv] at h
    simpa using h
  show iterate _ _ _ = _
  rw [iterate_next _ _ _ _ hstep]
  exact iterate_done _ _ _ (propertyStep_none env _ (find_eq_npos_of_absent _ _ _ hs))

theorem C6_shPropertyString_verbatim_witness :
    propertyPass exampleEnv 2 "@shPropertyString(quality)".toList = some (.ok "high".toList) :=
  C6_shPropertyString_verbatim exampleEnv "quality".toList "high".toList 2 (by decide)
    (by decide) (by decide) (by decide) (by decide)

/-- C7: a text that contains none of `@shProperty`, `@shGlobalSetting` and
`@shForeach` is returned unchanged by the three passes, for every resolver and
every settings map (the result does not depend on them, failing ones
included); so expanding the result once more gives the same text again. -/
theorem C7_no_marker_identity (env : Env) (source : Str) (fuel : Nat)
    (hp : ¬ "@shProperty".toList <:+: source)
    (hg : ¬ "@shGlobalSetting".toList <:+: source)
    (hf : ¬ "@shForeach".toList <:+: source) (hfuel : 1 ≤ fuel) :
    expand env fuel source = some (.ok source) ∧
    expand failingEnv fuel source = some (.ok source) ∧
    (∀ t, expand env fuel source = some (.ok t) → expand env fuel t = some (.ok t)) := by
  obtain ⟨f, rfl⟩ : ∃ f, fuel = f + 1 := ⟨fuel - 1, by omega⟩
  have h : ∀ env2 : Env, expand env2 (f + 1) source = some (.ok source) :=
    fun env2 => expand_no_marker env2 f source hp hg hf
  refine ⟨h env, h failingEnv, ?_⟩
  intro t ht
  rw [h env] at ht
  have : source = t := Except.ok.inj (Option.some.inj ht)
  rw [← this]
  exact h env

theorem C7_no_marker_identity_witness :
    expand exampleEnv 1 "gl_FragColor = vec4(1.0); // a@b".toList
      = some (.ok "gl_FragColor = vec4(1.0); // a@b".toList) :=
  (C7_no_marker_identity exampleEnv
    "gl_FragColor = vec4(1.0); // a@b".toList 1
    (by decide) (by decide) (by decide) (by decide)).1

theorem find_first (m pre rest : Str)
    (hpre : ∀ q, q < pre.length → ¬ m <+: (pre ++ rest).drop q) (hm : m <+: rest) :
    find (pre ++ rest) m 0 = pre.length := by
  rw [find_zero, findAux_append_left _ _ _ _ hpre, findAux_at_occurrence _ _ _ hm]
  simp

/-- The index of the parenthesis and the command name the source computes for a
marker `@cmd(` at index `pre.length`. -/
theorem command_parse (pre cmd rest : Str)
    (hlen : (pre ++ '@' :: cmd ++ '(' :: rest).length < npos) (hc : '(' ∉ cmd) :
    find (pre ++ '@' :: cmd ++ '(' :: rest) ['('] pre.length = pre.length + 1 + cmd.length ∧
    substr (pre ++ '@' :: cmd ++ '(' :: rest) (addSz pre.length 1)
      (subSz (pre.length + 1 + cmd.length) (addSz pre.length 1)) = .ok cmd := by
  have hl : pre.length + cmd.length + rest.length + 2 < 2 ^ 64 - 1 := by
    simp [npos] at hlen
    omega
  constructor
  · have e : pre ++ '@' :: cmd ++ '(' :: rest = pre ++ (('@' :: cmd) ++ '(' :: rest) := by simp
    rw [e, find_mid_char _ _ _ _ _ rfl (by simp [hc])]
    simp; omega
  · have e : pre ++ '@' :: cmd ++ '(' :: rest = (pre ++ ['@']) ++ (cmd ++ ('(' :: rest)) := by
      simp
    rw [e]
    apply substr_mid
    · rw [addSz_eq _ _ (by omega)]; simp
    · rw [addSz_eq _ _ (by omega), subSz_eq _ _ (by omega) (by omega)]; omega

theorem propertyStep_unknown (env : Env) (pre cmd rest : Str)
    (hlen : (pre ++ '@' :: cmd ++ '(' :: rest).length < npos)
    (hfirst : find (pre ++ '@' :: cmd ++ '(' :: rest) mProperty 0 = pre.length)
    (hc : '(' ∉ cmd) (h1 : cmd ≠ "shPropertyBool".toList)
    (h2 : cmd ≠ "shPropertyString".toList) (h3 : cmd ≠ "shPropertyEqual".toList) :
    propertyStep env (pre ++ '@' :: cmd ++ '(' :: rest)
      = .error (.runtimeError (unknownCommand cmd env.name)) := by
  obtain ⟨g1, g2⟩ := command_parse pre cmd rest hlen hc
  have hne : pre.length ≠ npos := by
    simp at hlen; omega
  unfold propertyStep
  simp only [hfirst, if_neg hne, g1, g2, if_neg h1, if_neg h2, if_neg h3]

theorem globalSettingStep_unknown (env : Env) (pre cmd rest : Str)
    (hlen : (pre ++ '@' :: cmd ++ '(' :: rest).length < npos)
    (hfirst : find (pre ++ '@' :: cmd ++ '(' :: rest) mGlobalSetting 0 = pre.length)
    (hc : '(' ∉ cmd) (h1 : cmd ≠ "shGlobalSettingBool".toList)
    (h2 : cmd ≠ "shGlobalSettingEqual".toList) :
    globalSettingStep env (pre ++ '@' :: cmd ++ '(' :: rest)
      = .error (.runtimeError (unknownCommand cmd env.name)) := by
  obtain ⟨g1, g2⟩ := command_parse pre cmd rest hlen hc
  have hne : pre.length ≠ npos := by
    simp at hlen; omega
  unfold globalSettingStep
  simp only [hfirst, if_neg hne, g1, g2, if_neg h1, if_neg h2]

/-- C9: let the text be `pre @cmd( rest` with no `(` in `cmd`. If `cmd` starts
with `shProperty`, no `@shProperty` starts before this marker, and `cmd` is
none of `shPropertyBool`, `shPropertyString`, `shPropertyEqual`, the expansion
fails with the `runtime_error` `unknown command "cmd" in "name"`. If the text
has no `@shProperty` at all, `cmd` starts with `shGlobalSetting`, no
`@shGlobalSetting` starts before this marker, and `cmd` is neither
`shGlobalSettingBool` nor `shGlobalSettingEqual`, the expansion fails with the
same message. -/
theorem C9_unknown_command (env : Env) (pre cmd rest : Str) (fuel : Nat)
    (hlen : (pre ++ '@' :: cmd ++ '(' :: rest).length < npos) (hc : '(' ∉ cmd)
    (hfuel : 1 ≤ fuel) :
    ("shProperty".toList <+: cmd →
      (∀ q, q < pre.length →
        ¬ "@shProperty".toList <+: (pre ++ '@' :: cmd ++ '(' :: rest).drop q) →
      cmd ≠ "shPropertyBool".toList → cmd ≠ "shPropertyString".toList →
      cmd ≠ "shPropertyEqual".toList →
      expand env fuel (pre ++ '@' :: cmd ++ '(' :: rest)
        = some (.error (.runtimeError
            ("unknown command \"".toList ++ cmd ++ "\" in \"".toList ++ env.name
              ++ "\"".toList)))) ∧
    (¬ "@shProperty".toList <:+: pre ++ '@' :: cmd ++ '(' :: rest →
      "shGlobalSetting".toList <+: cmd →
      (∀ q, q < pre.length →
        ¬ "@shGlobalSetting".toList <+: (pre ++ '@' :: cmd ++ '(' :: rest).drop q) →
      cmd ≠ "shGlobalSettingBool".toList → cmd ≠ "shGlobalSettingEqual".toList →
      expand env fuel (pre ++ '@' :: cmd ++ '(' :: rest)
        = some (.error (.runtimeError
            ("unknown command \"".toList ++ cmd ++ "\" in \"".toList ++ env.name
              ++ "\"".toList)))) := by
  obtain ⟨f, rfl⟩ : ∃ f, fuel = f + 1 := ⟨fuel - 1, by omega⟩
  constructor
  · intro hm hq h1 h2 h3
    obtain ⟨t, rfl⟩ := hm
    have hfirst : find (pre ++ '@' :: ("shProperty".toList ++ t) ++ '(' :: rest) mProperty 0
        = pre.length := by
      rw [List.append_assoc]
      refine find_first _ _ _ (by simpa using hq) ?_
      exact ⟨t ++ '(' :: rest, by simp [mProperty]⟩
    exact expand_property_error env f _ _
      (propertyStep_unknown env pre _ rest hlen hfirst hc h1 h2 h3)
  · intro hp hm hq h1 h2
    obtain ⟨t, rfl⟩ := hm
    have hfirst : find (pre ++ '@' :: ("shGlobalSetting".toList ++ t) ++ '(' :: rest)
        mGlobalSetting 0 = pre.length := by
      rw [List.append_assoc]
      refine find_first _ _ _ (by simpa using hq) ?_
      exact ⟨t ++ '(' :: rest, by simp [mGlobalSetting]⟩
    exact expand_global_error env f _ _ hp
      (globalSettingStep_unknown env pre _ rest hlen hfirst hc h1 h2)

theorem C9_unknown_command_witness :
    expand exampleEnv 1 "x = @shPropertyInt(n);".toList
        = some (.error (.runtimeError
            "unknown command \"shPropertyInt\" in \"terrain\"".toList)) ∧
    expand exampleEnv 1 "x = @shGlobalSettingInt(n);".toList
        = some (.error (.runtimeError
            "unknown command \"shGlobalSettingInt\" in \"terrain\"".toList)) :=
  ⟨(C9_unknown_command exampleEnv "x = ".toList "shPropertyInt".toList "n);".toList 1
      (by decide) (by decide) (by decide)).1
      (List.isPrefixOf_iff_prefix.mp (by decide)) (by decide) (by decide) (by decide)
      (by decide),
   (C9_unknown_command exampleEnv "x = ".toList "shGlobalSettingInt".toList "n);".toList 1
      (by decide) (by decide) (by decide)).2
      (by decide) (List.isPrefixOf_iff_prefix.mp (by decide)) (by decide) (by decide)
      (by decide)⟩

/-! ## Facts about the decimal rendering and `lexical_cast` -/

theorem decimalAux_fuel (n : Nat) : ∀ f1 f2, n < f1 → n < f2 →
    decimalAux f1 n = decimalAux f2 n := by
  induction n using Nat.strong_induction_on with
  | _ n ih =>
    intro f1 f2 h1 h2
    obtain ⟨g1, rfl⟩ : ∃ g, f1 = g + 1 := ⟨f1 - 1, by omega⟩
    obtain ⟨g2, rfl⟩ : ∃ g, f2 = g + 1 := ⟨f2 - 1, by omega⟩
    simp only [decimalAux]
    split
    · rfl
    · rw [ih (n / 10) (by omega) g1 g2 (by omega) (by omega)]

theorem decimal_lt (n : Nat) (h : n < 10) : decimal n = [Nat.digitChar n] := by
  simp [decimal, decimalAux, h]

theorem decimal_ge (n : Nat) (h : 10 ≤ n) :
    decimal n = decimal (n / 10) ++ [Nat.digitChar (n % 10)] := by
  have hn : ¬ n < 10 := by omega
  unfold decimal
  rw [decimalAux, if_neg hn, decimalAux_fuel (n / 10) n (n / 10 + 1) (by omega) (by omega)]

theorem digitValue_digitChar : ∀ d, d < 10 → digitValue (Nat.digitChar d) = some d := by
  decide

theorem digitChar_not_special : ∀ d, d < 10 →
    Nat.digitChar d ≠ '@' ∧ Nat.digitChar d ≠ ')' ∧ Nat.digitChar d ≠ '(' ∧
    Nat.digitChar d ≠ '-' ∧ Nat.digitChar d ≠ '+' := by
  decide

/-- Every character of a decimal rendering is a digit character. -/
theorem decimal_chars (n : Nat) : ∀ c ∈ decimal n, ∃ d, d < 10 ∧ c = Nat.digitChar d := by
  induction n using Nat.strong_induction_on with
  | _ n ih =>
    intro c hc
    by_cases h : n < 10
    · rw [decimal_lt n h] at hc
      exact ⟨n, h, by simpa using hc⟩
    · rw [decimal_ge n (by omega)] at hc
      rcases List.mem_append.mp hc with h1 | h1
      · exact ih (n / 10) (by omega) c h1
      · exact ⟨n % 10, by omega, by simpa using h1⟩

theorem decimal_no_at (n : Nat) : '@' ∉ decimal n := by
  intro h
  obtain ⟨d, hd, e⟩ := decimal_chars n _ h
  exact (digitChar_not_special d hd).1 e.symm

theorem decimal_no_close (n : Nat) : ')' ∉ decimal n := by
  intro h
  obtain ⟨d, hd, e⟩ := decimal_chars n _ h
  exact (digitChar_not_special d hd).2.1 e.symm

theorem decimal_ne_nil (n : Nat) : decimal n ≠ [] := by
  by_cases h : n < 10
  · simp [decimal_lt n h]
  · simp [decimal_ge n (by omega)]

theorem parseDigits_decimal (n : Nat) : ∀ rest, parseDigits (decimal n ++ rest) 0
    = parseDigits rest n := by
  induction n using Nat.strong_induction_on with
  | _ n ih =>
    intro rest
    by_cases h : n < 10
    · rw [decimal_lt n h]
      simp [parseDigits, digitValue_digitChar n h]
    · rw [decimal_ge n (by omega), List.append_assoc, ih (n / 10) (by omega)]
      simp only [List.singleton_append, parseDigits, digitValue_digitChar (n % 10) (by omega)]
      congr 1
      omega

/-- Reading back the decimal rendering of `n` gives `n`, for `n` in the range
of a non-negative `int`. -/
theorem lexical_cast_int_decimal (n : Nat) (h : n < 2 ^ 31) :
    lexical_cast_int (decimal n) = .ok (n : Int) := by
  have hp : parseUnsigned (decimal n) = some n := by
    have := parseDigits_decimal n []
    simp only [List.append_nil] at this
    simp [parseUnsigned, decimal_ne_nil, this, parseDigits]
  have hle : n ≤ 2 ^ 31 - 1 := by omega
  cases hd : decimal n with
  | nil => exact absurd hd (decimal_ne_nil n)
  | cons c cs =>
    obtain ⟨d, hd10, e⟩ := decimal_chars n c (by simp [hd])
    have hs := digitChar_not_special d hd10
    rw [hd] at hp
    unfold lexical_cast_int
    split
    · rename_i heq
      exact absurd (List.cons.inj heq).1 (by rw [e]; exact hs.2.2.2.1)
    · rename_i heq
      exact absurd (List.cons.inj heq).1 (by rw [e]; exact hs.2.2.2.2)
    · simp only [hp]
      rw [if_pos hle]

theorem lexical_cast_string_natCast (i : Nat) : lexical_cast_string (i : Int) = decimal i := by
  simp [lexical_cast_string]

/-! ## Facts about `replace_all` and the foreach step -/

theorem replaceAllAux_skip (search fmt : Str) (s : Str) : ∀ skip,
    replaceAllAux search fmt skip s = replaceAllAux search fmt 0 (s.drop skip) := by
  induction s with
  | nil => intro skip; cases skip <;> simp [replaceAllAux]
  | cons c cs ih =>
    intro skip
    cases skip with
    | zero => rfl
    | succ k => simp only [replaceAllAux, List.drop_succ_cons]; exact ih k

theorem replace_all_nil (search fmt : Str) : replace_all [] search fmt = [] := rfl

theorem replace_all_match (search fmt s : Str) (hne : search ≠ []) (h : search <+: s) :
    replace_all s search fmt = fmt ++ replace_all (s.drop search.length) search fmt := by
  cases s with
  | nil => exact absurd (List.prefix_nil.mp h) hne
  | cons c cs =>
    have hb : search.isPrefixOf (c :: cs) = true := List.isPrefixOf_iff_prefix.mpr h
    have hl : search.length = (search.length - 1) + 1 := by
      have := List.length_pos.mpr hne
      omega
    unfold replace_all
    rw [replaceAllAux, if_pos hb, replaceAllAux_skip]
    conv => rhs; rw [hl, List.drop_succ_cons]

theorem replace_all_skip (search fmt : Str) (c : Char) (cs : Str)
    (h : ¬ search <+: c :: cs) :
    replace_all (c :: cs) search fmt = c :: replace_all cs search fmt := by
  have hb : ¬ search.isPrefixOf (c :: cs) = true := fun hp => h (List.isPrefixOf_iff_prefix.mp hp)
  unfold replace_all
  rw [replaceAllAux, if_neg hb]

/-- The condition on a foreach body, that every `@` in it starts an
`@shIteration` token, passes to the rest of the body after any number of
characters. -/
theorem ats_drop (s : Str) (k : Nat)
    (h : ∀ q, (s.drop q).head? = some '@' → mIteration <+: s.drop q) :
    ∀ q, ((s.drop k).drop q).head? = some '@' → mIteration <+: (s.drop k).drop q := by
  intro q hq
  rw [List.drop_drop] at hq ⊢
  exact h _ hq

/-- Replacing the `@shIteration` tokens of such a body by a text without `@`
leaves no `@`. -/
theorem replace_all_no_at (d : Str) (hd : '@' ∉ d) : ∀ (n : Nat) (s : Str), s.length ≤ n →
    (∀ q, (s.drop q).head? = some '@' → mIteration <+: s.drop q) →
    '@' ∉ replace_all s mIteration d := by
  intro n
  induction n with
  | zero =>
    intro s hs _
    have : s = [] := List.length_eq_zero.mp (by omega)
    subst this
    simp [replace_all_nil]
  | succ n ih =>
    intro s hs hats
    cases s with
    | nil => simp [replace_all_nil]
    | cons c cs =>
      by_cases hp : mIteration <+: c :: cs
      · rw [replace_all_match _ _ _ (by decide) hp]
        have hlen : ((c :: cs).drop mIteration.length).length ≤ n := by
          simp only [List.length_drop, List.length_cons] at hs ⊢
          have : mIteration.length = 12 := by decide
          omega
        have := ih _ hlen (ats_drop _ _ hats)
        simp [hd, this]
      · rw [replace_all_skip _ _ _ _ hp]
        have hc : c ≠ '@' := by
          intro hc
          exact hp (by simpa using hats 0 (by simp [hc]))
        have hcs := ih cs (by simpa using hs) (by simpa using ats_drop (c :: cs) 1 hats)
        simp only [List.mem_cons, not_or]
        exact ⟨fun h => hc h.symm, hcs⟩

theorem unroll_foldl (f : Nat → Str) (l : List Nat) (acc : Str) :
    l.foldl (fun replaceStr i => replaceStr ++ f i) acc = acc ++ (l.map f).flatten := by
  induction l generalizing acc with
  | nil => simp
  | cons a l ih => simp [ih]

theorem unroll_eq (content : Str) (N : Nat) :
    unroll content (N : Int)
      = ((List.range N).map (fun i => replace_all content mIteration (decimal i))).flatten := by
  unfold unroll
  have e : ∀ i : Nat, lexical_cast_string (Int.ofNat i) = decimal i :=
    lexical_cast_string_natCast
  simp only [Int.toNat_ofNat, e]
  rw [unroll_foldl (fun i => replace_all content mIteration (decimal i))]
  simp

/-- One iteration of the foreach loop on a text `pre @shForeach(arg) content
@shEndForeach post` whose first `@shForeach` and whose first `@shEndForeach`
after it are the ones shown. -/
theorem foreachStep_block (pre arg content post : Str) (num : Int)
    (hlen : (pre ++ directive "shForeach".toList arg ++ (content ++ mEndForeach ++ post)).length
      < npos)
    (hfirst : find (pre ++ directive "shForeach".toList arg ++ (content ++ mEndForeach ++ post))
      mForeach 0 = pre.length)
    (harg : ')' ∉ arg) (hnum : lexical_cast_int arg = .ok num)
    (hend : find (pre ++ directive "shForeach".toList arg ++ (content ++ mEndForeach ++ post))
      mEndForeach pre.length = pre.length + 12 + arg.length + content.length) :
    foreachStep (pre ++ directive "shForeach".toList arg ++ (content ++ mEndForeach ++ post))
      = .ok (some (pre ++ unroll content num ++ post)) := by
  obtain ⟨h1, h2, _, h4, _⟩ := directive_parse pre "shForeach".toList arg
    (content ++ mEndForeach ++ post) hlen (by decide) (by decide) harg
  have hl : pre.length + arg.length + content.length + post.length + 25 < 2 ^ 64 - 1 := by
    simp [directive, npos, mEndForeach] at hlen
    omega
  have hne : pre.length ≠ npos := by
    simp [npos]; omega
  have hne2 : pre.length + 12 + arg.length + content.length ≠ npos := by
    simp [npos]; omega
  have hc : substr (pre ++ directive "shForeach".toList arg ++ (content ++ mEndForeach ++ post))
      (addSz (pre.length + 2 + "shForeach".toList.length + arg.length) 1)
      (subSz (pre.length + 12 + arg.length + content.length)
        (addSz (pre.length + 2 + "shForeach".toList.length + arg.length) 1)) = .ok content := by
    have e : pre ++ directive "shForeach".toList arg ++ (content ++ mEndForeach ++ post)
        = (pre ++ directive "shForeach".toList arg) ++ (content ++ (mEndForeach ++ post)) := by
      simp
    rw [e]
    apply substr_mid
    · rw [addSz_eq _ _ (by simp; omega)]; simp [directive]; omega
    · rw [addSz_eq _ _ (by simp; omega), subSz_eq _ _ (by simp; omega) (by omega)]
      simp; omega
  have hr : ∀ v, replace (pre ++ directive "shForeach".toList arg
        ++ (content ++ mEndForeach ++ post)) pre.length
      (subSz (addSz (pre.length + 12 + arg.length + content.length) mEndForeach.length)
        pre.length) v = .ok (pre ++ v ++ post) := by
    intro v
    have e : pre ++ directive "shForeach".toList arg ++ (content ++ mEndForeach ++ post)
        = pre ++ ((directive "shForeach".toList arg ++ content ++ mEndForeach) ++ post) := by
      simp
    rw [e]
    apply replace_mid
    · rfl
    · have : mEndForeach.length = 13 := by decide
      rw [this, addSz_eq _ _ (by omega), subSz_eq _ _ (by omega) (by omega)]
      simp [directive, this]; omega
  unfold foreachStep
  simp only [hfirst, if_neg hne, h1, h2, h4, hnum, hend, if_neg hne2, hc, hr]

/-! ## Texts in which every `@` starts one of a few known tokens -/

/-- When every `@` of `A` and every `@` of `B` starts one of the tokens of
`allowed`, so does every `@` of `A ++ B`. -/
theorem toks_append (allowed : List Str) (A B : Str)
    (hA : ∀ q, q < A.length → (A.drop q).head? = some '@' → ∃ t ∈ allowed, t <+: A.drop q)
    (hB : ∀ q, q < B.length → (B.drop q).head? = some '@' → ∃ t ∈ allowed, t <+: B.drop q) :
    ∀ q, q < (A ++ B).length → ((A ++ B).drop q).head? = some '@' →
      ∃ t ∈ allowed, t <+: (A ++ B).drop q := by
  intro q hq hh
  by_cases hqa : q < A.length
  · rw [List.drop_append_of_le_length (Nat.le_of_lt hqa)] at hh ⊢
    have hne : A.drop q ≠ [] := by
      intro h0
      have := congrArg List.length h0
      simp at this; omega
    have hh2 : (A.drop q).head? = some '@' := by
      cases hd : A.drop q with
      | nil => exact absurd hd hne
      | cons a as => rw [hd] at hh; simpa using hh
    obtain ⟨t, ht, hp⟩ := hA q hqa hh2
    exact ⟨t, ht, hp.trans (List.prefix_append _ _)⟩
  · have e : (A ++ B).drop q = B.drop (q - A.length) := by
      rw [List.drop_append_eq_append_drop, List.drop_eq_nil_of_le (by omega)]
      simp
    rw [e] at hh ⊢
    exact hB _ (by simp at hq; omega) hh

theorem toks_single (allowed : List Str) (t rest : Str) (ht : ('@' :: t) ∈ allowed)
    (hrest : '@' ∉ t ++ rest) :
    ∀ q, q < ('@' :: t ++ rest).length → (('@' :: t ++ rest).drop q).head? = some '@' →
      ∃ u ∈ allowed, u <+: ('@' :: t ++ rest).drop q := by
  intro q hq hh
  cases q with
  | zero => exact ⟨_, ht, by simp⟩
  | succ k =>
    exfalso
    have hk : k < (t ++ rest).length := by simpa using hq
    have e : ('@' :: t ++ rest).drop (k + 1) = (t ++ rest).drop k := by simp
    rw [e, List.drop_eq_getElem_cons hk] at hh
    simp only [List.head?_cons, Option.some.injEq] at hh
    exact hrest (hh ▸ List.getElem_mem _)

/-- A marker that starts with `@` and is comparable with none of the allowed
tokens does not start anywhere in a text of allowed tokens, whatever follows
the text. -/
theorem no_marker_in_toks (allowed : List Str) (m A C : Str)
    (hA : ∀ q, q < A.length → (A.drop q).head? = some '@' → ∃ t ∈ allowed, t <+: A.drop q)
    (hm : ∀ t ∈ allowed, ¬ ('@' :: m) <+: t ∧ ¬ t <+: ('@' :: m)) :
    ∀ q, q < A.length → ¬ ('@' :: m) <+: (A ++ C).drop q := by
  intro q hq hp
  rw [List.drop_append_of_le_length (Nat.le_of_lt hq)] at hp
  have hh : (A.drop q).head? = some '@' := by
    rw [List.drop_eq_getElem_cons hq] at hp ⊢
    simp only [List.cons_append, List.cons_prefix_cons] at hp
    rw [List.head?_cons, ← hp.1]
  obtain ⟨t, ht, htp⟩ := hA q hq hh
  have htp2 : t <+: A.drop q ++ C := htp.trans (List.prefix_append _ _)
  rcases List.prefix_or_prefix_of_prefix hp htp2 with h | h
  · exact (hm t ht).1 h
  · exact (hm t ht).2 h

theorem find_eq_npos_of_no_start (m s : Str) (pos : Nat) (hm : m ≠ [])
    (h : ∀ q, q < s.length → ¬ m <+: s.drop q) : find s m pos = npos := by
  apply find_eq_npos_of_absent
  rintro ⟨a, b, hab⟩
  have hq : a.length < s.length := by
    have := congrArg List.length hab
    have := List.length_pos.mpr hm
    simp at *; omega
  apply h a.length hq
  rw [← hab]
  simp

/-! ## `replace_all` on a text given by its segments -/

theorem replace_all_segment (seg rest d : Str) (m : Str) (hseg : '@' ∉ seg) :
    replace_all (seg ++ rest) ('@' :: m) d = seg ++ replace_all rest ('@' :: m) d := by
  induction seg with
  | nil => rfl
  | cons c cs ih =>
    have hc : c ≠ '@' := fun h => hseg (by simp [h])
    have hcs : '@' ∉ cs := fun h => hseg (by simp [h])
    have hnp : ¬ ('@' :: m) <+: c :: (cs ++ rest) := by
      simp only [List.cons_prefix_cons, not_and]
      intro h
      exact absurd h.symm hc
    rw [List.cons_append, replace_all_skip _ _ _ _ hnp, ih hcs, List.cons_append]

theorem replace_all_token (rest d m : Str) (hm : m ≠ []) :
    replace_all (m ++ rest) m d = d ++ replace_all rest m d := by
  rw [replace_all_match _ _ _ hm (List.prefix_append _ _), List.drop_left]

theorem replace_all_joinWith (d m : Str) (segs : List Str) (h : ∀ t ∈ segs, '@' ∉ t) :
    replace_all (joinWith ('@' :: m) segs) ('@' :: m) d = joinWith d segs := by
  induction segs with
  | nil => rfl
  | cons s rest ih =>
    cases rest with
    | nil =>
      have := replace_all_segment s [] d m (h s (by simp))
      simpa [joinWith, replace_all_nil] using this
    | cons t rest =>
      have ih2 := ih (fun u hu => h u (by simp [hu]))
      simp only [joinWith, List.append_assoc]
      rw [replace_all_segment _ _ _ _ (h s (by simp)),
        replace_all_token _ _ _ (by simp), ih2]

/-- A single replacement by the foreach pass, in a text without property and
global-setting markers, that leaves no `@shForeach` ends the expansion. -/
theorem expand_single_foreach (env : Env) (fuel : Nat) (source t : Str)
    (hp : find source mProperty 0 = npos) (hg : find source mGlobalSetting 0 = npos)
    (hstep : foreachStep source = .ok (some t)) (ht : find t mForeach 0 = npos) :
    expand env (fuel + 1 + 1) source = some (.ok t) := by
  apply expand_of_passes env _ source source source
  · exact iterate_done _ _ _ (propertyStep_none env _ hp)
  · exact iterate_done _ _ _ (globalSettingStep_none env _ hg)
  · show iterate _ _ _ = _
    rw [iterate_next _ _ _ _ hstep]
    exact iterate_done _ _ _ (foreachStep_none _ ht)

theorem unroll_no_at (body : Str) (N : Nat)
    (hbody : ∀ q, q < body.length → (body.drop q).head? = some '@' →
      mIteration <+: body.drop q) : '@' ∉ unroll body (N : Int) := by
  have hb : ∀ q, (body.drop q).head? = some '@' → mIteration <+: body.drop q := by
    intro q hq
    by_cases h : q < body.length
    · exact hbody q h hq
    · rw [List.drop_eq_nil_of_le (by omega)] at hq
      simp at hq
  rw [unroll_eq]
  intro hmem
  obtain ⟨l, hl, hin⟩ := List.mem_flatten.mp hmem
  obtain ⟨i, _, rfl⟩ := List.mem_map.mp hl
  exact replace_all_no_at (decimal i) (decimal_no_at i) body.length body (le_refl _) hb hin

/-- The foreach step on `@shForeach(N) body @shEndForeach`, for a body whose
every `@` starts an `@shIteration` token; the text has no property and no
global-setting marker. -/
theorem foreach_block_facts (N : Nat) (body : Str) (hN : N < 2 ^ 31)
    (hbody : ∀ q, q < body.length → (body.drop q).head? = some '@' →
      mIteration <+: body.drop q)
    (hlen : ([] ++ directive "shForeach".toList (decimal N) ++ (body ++ mEndForeach ++ [])).length
      < npos) :
    find ([] ++ directive "shForeach".toList (decimal N) ++ (body ++ mEndForeach ++ []))
      mProperty 0 = npos ∧
    find ([] ++ directive "shForeach".toList (decimal N) ++ (body ++ mEndForeach ++ []))
      mGlobalSetting 0 = npos ∧
    foreachStep ([] ++ directive "shForeach".toList (decimal N) ++ (body ++ mEndForeach ++ []))
      = .ok (some (unroll body (N : Int))) := by
  have hdir : ∀ allowed : List Str, mForeach ∈ allowed → ∀ q,
      q < (directive "shForeach".toList (decimal N)).length →
      ((directive "shForeach".toList (decimal N)).drop q).head? = some '@' →
      ∃ t ∈ allowed, t <+: (directive "shForeach".toList (decimal N)).drop q := by
    intro allowed hin
    have e : directive "shForeach".toList (decimal N)
        = '@' :: "shForeach".toList ++ ('(' :: decimal N ++ [')']) := by simp [directive]
    rw [e]
    exact toks_single allowed "shForeach".toList _ hin (by simp [decimal_no_at])
  have hbd : ∀ allowed : List Str, mIteration ∈ allowed → ∀ q, q < body.length →
      (body.drop q).head? = some '@' → ∃ t ∈ allowed, t <+: body.drop q :=
    fun allowed hin q hq hh => ⟨mIteration, hin, hbody q hq hh⟩
  have hendtok : ∀ q, q < mEndForeach.length → (mEndForeach.drop q).head? = some '@' →
      ∃ t ∈ [mForeach, mIteration, mEndForeach], t <+: mEndForeach.drop q := by
    have := toks_single [mForeach, mIteration, mEndForeach] "shEndForeach".toList []
      (by decide) (by decide)
    simpa [mEndForeach] using this
  have hall := toks_append _ _ _
    (toks_append _ _ _ (hdir [mForeach, mIteration, mEndForeach] (by simp))
      (hbd [mForeach, mIteration, mEndForeach] (by simp))) hendtok
  have e3 : [] ++ directive "shForeach".toList (decimal N) ++ (body ++ mEndForeach ++ [])
      = directive "shForeach".toList (decimal N) ++ body ++ mEndForeach := by simp
  have hnone : ∀ m : Str,
      (∀ t ∈ [mForeach, mIteration, mEndForeach], ¬ ('@' :: m) <+: t ∧ ¬ t <+: ('@' :: m)) →
      find ([] ++ directive "shForeach".toList (decimal N) ++ (body ++ mEndForeach ++ []))
        ('@' :: m) 0 = npos := by
    intro m hm
    rw [e3]
    apply find_eq_npos_of_no_start _ _ _ (by simp)
    have := no_marker_in_toks _ m _ [] hall hm
    simpa using this
  refine ⟨hnone "shProperty".toList (by decide), hnone "shGlobalSetting".toList (by decide), ?_⟩
  have hstep := foreachStep_block [] (decimal N) body [] (N : Int) hlen
    (by
      rw [List.append_assoc]
      exact find_marker_first _ _ _ (by simp) (List.isPrefixOf_iff_prefix.mp (by rfl)))
    (decimal_no_close N) (lexical_cast_int_decimal N hN)
    (by
      have e4 : [] ++ directive "shForeach".toList (decimal N) ++ (body ++ mEndForeach ++ [])
          = [] ++ ((directive "shForeach".toList (decimal N) ++ body) ++ (mEndForeach ++ [])) := by
        simp
      have hfm := find_mid mEndForeach []
        (directive "shForeach".toList (decimal N) ++ body) (mEndForeach ++ []) 0 rfl
        (no_marker_in_toks [mForeach, mIteration] "shEndForeach".toList _ _
          (toks_append _ _ _ (hdir _ (by simp)) (hbd _ (by simp))) (by decide))
        (List.prefix_append _ _)
      rw [e4]
      show find _ mEndForeach 0 = _
      rw [hfm]
      simp [directive]; omega)
  simpa using hstep

/-- C1: for `N < 2 ^ 31` written in decimal and a body in which every `@` is
the first character of an `@shIteration` token, the expansion of
`@shForeach(N)` body `@shEndForeach` succeeds and returns the copies of the
body for `i = 0 .. N-1` in order, each with every `@shIteration` replaced by
the decimal rendering of `i`; for `N = 0` the result is empty. When the body is
given by its segments between the tokens, copy `i` is the segments with the
decimal rendering of `i` between them. In particular
`@shForeach(3)light@shIteration,@shEndForeach` expands to
`light0,light1,light2,`. -/
theorem C1_foreach_unrolling (env : Env) (N : Nat) (body : Str) (fuel : Nat)
    (hN : N < 2 ^ 31)
    (hbody : ∀ q, q < body.length → (body.drop q).head? = some '@' →
      "@shIteration".toList <+: body.drop q)
    (hlen : ("@shForeach(".toList ++ decimal N ++ [')'] ++ body
      ++ "@shEndForeach".toList).length < npos)
    (hfuel : 2 ≤ fuel) :
    expand env fuel ("@shForeach(".toList ++ decimal N ++ [')'] ++ body
        ++ "@shEndForeach".toList)
      = some (.ok ((List.range N).map
          (fun i => replace_all body "@shIteration".toList (decimal i))).flatten) ∧
    (N = 0 → expand env fuel ("@shForeach(".toList ++ decimal N ++ [')'] ++ body
        ++ "@shEndForeach".toList) = some (.ok [])) ∧
    (∀ segs : List Str, (∀ t ∈ segs, '@' ∉ t) → body = joinWith "@shIteration".toList segs →
      expand env fuel ("@shForeach(".toList ++ decimal N ++ [')'] ++ body
          ++ "@shEndForeach".toList)
        = some (.ok ((List.range N).map (fun i => joinWith (decimal i) segs)).flatten)) ∧
    expand env fuel "@shForeach(3)light@shIteration,@shEndForeach".toList
      = some (.ok "light0,light1,light2,".toList) := by
  obtain ⟨f, rfl⟩ := two_le_fuel fuel hfuel
  have e : "@shForeach(".toList ++ decimal N ++ [')'] ++ body ++ "@shEndForeach".toList
      = [] ++ directive "shForeach".toList (decimal N) ++ (body ++ mEndForeach ++ []) := by
    simp [directive, mEndForeach]
  rw [e] at hlen ⊢
  obtain ⟨hp, hg, hstep⟩ := foreach_block_facts N body hN hbody hlen
  have hat : '@' ∉ unroll body (N : Int) := unroll_no_at body N hbody
  have hmain := expand_single_foreach env f _ _ hp hg hstep
    (find_eq_npos_of_absent _ _ _ (absent_of_not_mem _ _ _ hat))
  rw [unroll_eq] at hmain
  refine ⟨hmain, ?_, ?_, ?_⟩
  · intro h0
    rw [hmain, h0]
    rfl
  · intro segs hsegs hb
    rw [hmain]
    have : ∀ i : Nat, replace_all body mIteration (decimal i) = joinWith (decimal i) segs := by
      intro i
      rw [hb]
      exact replace_all_joinWith (decimal i) "shIteration".toList segs hsegs
    simp only [this]
  · exact expand_single_foreach env f _ _ (by decide) (by decide)
      (by decide : foreachStep "@shForeach(3)light@shIteration,@shEndForeach".toList
        = .ok (some "light0,light1,light2,".toList)) (by decide)

theorem C1_foreach_unrolling_witness :
    expand exampleEnv 2 "@shForeach(3)light@shIteration,@shEndForeach".toList
      = some (.ok "light0,light1,light2,".toList) :=
  (C1_foreach_unrolling exampleEnv 3 "light@shIteration,".toList 2 (by decide) (by decide)
    (by decide) (by decide)).1

/-! ## What holds when a loop ends -/

/-- A loop that returns a text has reached its `break` on that text. -/
theorem iterate_exit (step : Str → Except Err (Option Str)) (fuel : Nat) (s t : Str)
    (h : iterate step fuel s = some (.ok t)) : step t = .ok none := by
  induction fuel generalizing s with
  | zero => simp [iterate] at h
  | succ fuel ih =>
    cases hs : step s with
    | error e =>
      rw [iterate_error _ _ _ _ hs] at h
      simp at h
    | ok o =>
      cases o with
      | none =>
        rw [iterate_done _ _ _ hs] at h
        have : s = t := Except.ok.inj (Option.some.inj h)
        rw [← this]
        exact hs
      | some u =>
        rw [iterate_next _ _ _ _ hs] at h
        exact ih u h

/-- A property of the text that every replacement keeps holds of the text the
loop returns. -/
theorem iterate_invariant (step : Str → Except Err (Option Str)) (P : Str → Prop)
    (hstep : ∀ s u, P s → step s = .ok (some u) → P u) (fuel : Nat) (s t : Str) (hs : P s)
    (h : iterate step fuel s = some (.ok t)) : P t := by
  induction fuel generalizing s with
  | zero => simp [iterate] at h
  | succ fuel ih =>
    cases hst : step s with
    | error e =>
      rw [iterate_error _ _ _ _ hst] at h
      simp at h
    | ok o =>
      cases o with
      | none =>
        rw [iterate_done _ _ _ hst] at h
        have : s = t := Except.ok.inj (Option.some.inj h)
        rw [← this]
        exact hs
      | some u =>
        rw [iterate_next _ _ _ _ hst] at h
        exact ih u (hstep s u hs hst) h

theorem propertyStep_break (env : Env) (t : Str) (h : propertyStep env t = .ok none) :
    find t mProperty 0 = npos := by
  unfold propertyStep at h
  simp only [] at h
  split at h
  · assumption
  · exfalso
    repeat' split at h
    all_goals simp at h

theorem globalSettingStep_break (env : Env) (t : Str)
    (h : globalSettingStep env t = .ok none) : find t mGlobalSetting 0 = npos := by
  unfold globalSettingStep at h
  simp only [] at h
  split at h
  · assumption
  · exfalso
    repeat' split at h
    all_goals simp at h

theorem foreachStep_break (t : Str) (h : foreachStep t = .ok none) :
    find t mForeach 0 = npos := by
  unfold foreachStep at h
  simp only [] at h
  split at h
  · assumption
  · exfalso
    repeat' split at h
    all_goals simp at h

theorem replace_ok (s v x : Str) (pos len : Nat) (h : replace s pos len v = .ok x) :
    x = s.take pos ++ v ++ (s.drop pos).drop len := by
  unfold replace at h
  split at h
  · simp at h
  · exact (Except.ok.inj h).symm

/-- A replacement by the global-setting pass puts `"1"` or `"0"` between a
part from the front and a part from the back of the text. -/
theorem globalSettingStep_shape (env : Env) (s u : Str)
    (h : globalSettingStep env s = .ok (some u)) :
    ∃ (pos len : Nat) (b : Bool), u = s.take pos ++ boolLit b ++ (s.drop pos).drop len := by
  unfold globalSettingStep at h
  simp only [] at h
  split at h
  · simp at h
  split at h
  · simp at h
  split at h
  · simp at h
  split at h
  · simp at h
  rename_i v hv
  split at h
  · simp at h
  rename_i x hx
  have hu : x = u := by
    simpa using h
  have hb : ∃ b, v = boolLit b := by
    split at hv
    · repeat' split at hv
      all_goals first
        | (simp at hv; done)
        | exact ⟨_, (Except.ok.inj hv).symm⟩
    · simp at hv
  obtain ⟨b, rfl⟩ := hb
  exact ⟨_, _, b, hu ▸ replace_ok _ _ _ _ _ hx⟩

/-- A text that occurs in `A ++ [c] ++ B` and does not contain `c` occurs in
`A` or in `B`. -/
theorem occurs_around_char (m A B : Str) (c : Char) (hc : c ∉ m)
    (h : m <:+: A ++ c :: B) : m <:+: A ∨ m <:+: B := by
  induction A with
  | nil =>
    rcases List.infix_cons_iff.mp h with h1 | h1
    · cases m with
      | nil => exact Or.inl List.nil_infix
      | cons x m =>
        simp only [List.cons_prefix_cons] at h1
        exact absurd (by simp [h1.1]) hc
    · exact Or.inr h1
  | cons a A ih =>
    rw [List.cons_append] at h
    rcases List.infix_cons_iff.mp h with h1 | h1
    · have h2 : a :: A <+: a :: A ++ c :: B := List.prefix_append _ _
      rcases List.prefix_or_prefix_of_prefix h1 h2 with h3 | h3
      · exact Or.inl h3.isInfix
      · obtain ⟨r, hr⟩ := h3
        cases r with
        | nil =>
          left
          rw [← hr]
          simp
        | cons y r =>
          exfalso
          rw [← hr] at h1
          have h4 : y = c ∧ r <+: B := by simpa using h1
          apply hc
          rw [← hr, ← h4.1]
          simp
    · rcases ih h1 with h5 | h5
      · exact Or.inl (h5.trans (List.suffix_cons a A).isInfix)
      · exact Or.inr h5

/-- The global-setting pass does not create an `@shProperty`. -/
theorem globalSettingStep_keeps (env : Env) (s u : Str) (hs : ¬ mProperty <:+: s)
    (h : globalSettingStep env s = .ok (some u)) : ¬ mProperty <:+: u := by
  obtain ⟨pos, len, b, rfl⟩ := globalSettingStep_shape env s u h
  intro hi
  have hlit : ∃ c, boolLit b = [c] ∧ c ∉ mProperty := by
    cases b
    · exact ⟨'0', rfl, by decide⟩
    · exact ⟨'1', rfl, by decide⟩
  obtain ⟨c, hc, hcm⟩ := hlit
  rw [hc, List.append_assoc] at hi
  rcases occurs_around_char _ _ _ c hcm (by simpa using hi) with h1 | h1
  · exact hs (h1.trans (List.take_prefix _ _).isInfix)
  · exact hs (h1.trans (List.drop_suffix _ _).isInfix)

theorem expand_ok_passes (env : Env) (fuel : Nat) (source t : Str)
    (h : expand env fuel source = some (.ok t)) :
    ∃ s1 s2, propertyPass env fuel source = some (.ok s1) ∧
      globalSettingPass env fuel s1 = some (.ok s2) ∧ foreachPass fuel s2 = some (.ok t) := by
  unfold expand at h
  split at h
  · simp at h
  · simp at h
  · rename_i s1 h1
    split at h
    · simp at h
    · simp at h
    · rename_i s2 h2
      exact ⟨s1, s2, h1, h2, h⟩

/-- C8, as stated, fails: an `@shEndForeach` with no `@shForeach` before it
stays in the result, and the foreach pass, which runs last, can put
`@shProperty` and `@shGlobalSetting` together from the pieces around an
`@shEndForeach`. -/
theorem C8_markers_remain_counterexample :
    (expand exampleEnv 1 "a@shEndForeach".toList = some (.ok "a@shEndForeach".toList) ∧
      "@shEndForeach".toList <:+: "a@shEndForeach".toList) ∧
    (expand exampleEnv 2 "@shForeach(1)@shPro@shEndForeachpertyBool(useShadows)".toList
        = some (.ok "@shPropertyBool(useShadows)".toList) ∧
      "@shProperty".toList <:+: "@shPropertyBool(useShadows)".toList) ∧
    (expand exampleEnv 2 "@shForeach(1)@shGlobal@shEndForeachSettingBool(shadows)".toList
        = some (.ok "@shGlobalSettingBool(shadows)".toList) ∧
      "@shGlobalSetting".toList <:+: "@shGlobalSettingBool(shadows)".toList) := by
  decide

/-- C8, amended: when the three passes succeed, the resulting text (shorter
than `npos`) contains no `@shForeach`; the text after the property pass
contains no `@shProperty`, and the text after the global-setting pass contains
neither `@shProperty` nor `@shGlobalSetting`. -/
theorem C8_post_expansion (env : Env) (source t : Str) (fuel : Nat)
    (h : expand env fuel source = some (.ok t)) (hlen : t.length < npos) :
    ¬ "@shForeach".toList <:+: t ∧
    ∃ s1 s2, propertyPass env fuel source = some (.ok s1) ∧
      globalSettingPass env fuel s1 = some (.ok s2) ∧ foreachPass fuel s2 = some (.ok t) ∧
      (s1.length < npos → ¬ "@shProperty".toList <:+: s1 ∧
        (s2.length < npos →
          ¬ "@shProperty".toList <:+: s2 ∧ ¬ "@shGlobalSetting".toList <:+: s2)) := by
  obtain ⟨s1, s2, h1, h2, h3⟩ := expand_ok_passes env fuel source t h
  refine ⟨?_, s1, s2, h1, h2, h3, ?_⟩
  · exact absent_of_find_eq_npos _ t hlen (foreachStep_break t (iterate_exit _ _ _ _ h3))
  · intro hl1
    have hp1 : ¬ mProperty <:+: s1 :=
      absent_of_find_eq_npos _ s1 hl1 (propertyStep_break env s1 (iterate_exit _ _ _ _ h1))
    refine ⟨hp1, ?_⟩
    intro hl2
    constructor
    · exact iterate_invariant (globalSettingStep env) (fun s => ¬ mProperty <:+: s)
        (fun s u hs hu => globalSettingStep_keeps env s u hs hu) fuel s1 s2 hp1 h2
    · exact absent_of_find_eq_npos _ s2 hl2
        (globalSettingStep_break env s2 (iterate_exit _ _ _ _ h2))

theorem C8_post_expansion_witness :
    ¬ "@shForeach".toList <:+: "x0;x1;".toList :=
  (C8_post_expansion exampleEnv "@shForeach(2)x@shIteration;@shEndForeach".toList
    "x0;x1;".toList 2 (by decide) (by decide)).1

/-! ## An `@shForeach` with no `@shEndForeach` after it is never removed -/

theorem findAux_found (pat L : Str) (i r : Nat) (h : findAux pat L i = r) (hr : r ≠ npos) :
    ∃ k, r = i + k ∧ k ≤ L.length ∧ pat <+: L.drop k := by
  induction L generalizing i with
  | nil =>
    simp only [findAux] at h
    split at h
    · rename_i hp
      exact ⟨0, by omega, by simp, by simp [hp]⟩
    · exact absurd h.symm hr
  | cons c cs ih =>
    simp only [findAux] at h
    split at h
    · rename_i hp
      exact ⟨0, by omega, by simp, by simpa using List.isPrefixOf_iff_prefix.mp hp⟩
    · obtain ⟨k, hk1, hk2, hk3⟩ := ih (i + 1) h
      exact ⟨k + 1, by omega, by simpa using hk2, by simpa using hk3⟩

/-- A result of `find` other than `npos` is an index at or after `pos` where
the pattern occurs. -/
theorem find_found (s pat : Str) (pos r : Nat) (h : find s pat pos = r) (hr : r ≠ npos) :
    pos ≤ r ∧ r ≤ s.length ∧ pat <+: s.drop r := by
  unfold find at h
  split at h
  · exact absurd h.symm hr
  · rename_i hle
    obtain ⟨k, hk1, hk2, hk3⟩ := findAux_found pat _ pos r h hr
    rw [List.drop_drop] at hk3
    simp only [List.length_drop] at hk2
    subst hk1
    exact ⟨by omega, by omega, hk3⟩

theorem substr_to_end (A B : Str) (p n : Nat) (hp : p = A.length) (hn : B.length ≤ n) :
    substr (A ++ B) p n = .ok B := by
  subst hp
  simp [substr, List.take_of_length_le hn]

theorem replace_to_end (A B v : Str) (p n : Nat) (hp : p = A.length) (hn : B.length ≤ n) :
    replace (A ++ B) p n v = .ok (A ++ v) := by
  subst hp
  simp [replace, List.drop_eq_nil_of_le hn]

theorem find_char_absent (c : Char) (A B : Str) (hB : c ∉ B) :
    find (A ++ B) [c] A.length = npos := by
  rw [find_append_at]
  apply findAux_absent
  rintro ⟨x, y, h⟩
  apply hB
  rw [← h]
  simp

/-- The property step on `pre @shPropertyBool` with nothing after the command
name: both searches for a parenthesis give `npos`, the name the resolver is
asked for is the whole text, and the text from the `@` on is replaced. -/
theorem propertyStep_bool_no_open (env : Env) (pre : Str)
    (hlen : (pre ++ "@shPropertyBool".toList).length < npos)
    (hpre : '@' ∉ pre) (hne : pre ≠ []) :
    propertyStep env (pre ++ "@shPropertyBool".toList)
      = match env.getPropertyBool (pre ++ "@shPropertyBool".toList) with
        | .error e => .error e
        | .ok b => .ok (some (pre ++ boolLit b)) := by
  have hl : pre.length + 15 < 2 ^ 64 - 1 := by
    simp [npos] at hlen
    omega
  have hpos : 0 < pre.length := List.length_pos.mpr hne
  have hfirst : find (pre ++ "@shPropertyBool".toList) mProperty 0 = pre.length :=
    find_marker_first _ _ _ hpre (List.isPrefixOf_iff_prefix.mp (by rfl))
  have h1 : find (pre ++ "@shPropertyBool".toList) ['('] pre.length = npos :=
    find_char_absent _ _ _ (by decide)
  have h2 : find (pre ++ "@shPropertyBool".toList) [')'] pre.length = npos :=
    find_char_absent _ _ _ (by decide)
  have h3 : substr (pre ++ "@shPropertyBool".toList) (addSz pre.length 1)
      (subSz npos (addSz pre.length 1)) = .ok "shPropertyBool".toList := by
    have e : pre ++ "@shPropertyBool".toList = (pre ++ ['@']) ++ "shPropertyBool".toList := by
      simp
    rw [e]
    apply substr_to_end
    · rw [addSz_eq _ _ (by omega)]; simp
    · rw [addSz_eq _ _ (by omega)]
      have : ("shPropertyBool".toList).length = 14 := by decide
      rw [this]
      unfold subSz npos
      omega
  have h4 : substr (pre ++ "@shPropertyBool".toList) (addSz npos 1)
      (subSz npos (addSz npos 1)) = .ok (pre ++ "@shPropertyBool".toList) := by
    have e : pre ++ "@shPropertyBool".toList = [] ++ (pre ++ "@shPropertyBool".toList) := by
      simp
    have hn : subSz npos 0 = npos := by decide
    rw [addSz_npos_one, hn]
    conv => lhs; rw [e]
    exact substr_to_end _ _ _ _ rfl (Nat.le_of_lt hlen)
  have h5 : ∀ v, replace (pre ++ "@shPropertyBool".toList) pre.length
      (subSz (addSz npos 1) pre.length) v = .ok (pre ++ v) := by
    intro v
    apply replace_to_end _ _ _ _ _ rfl
    have : ("@shPropertyBool".toList).length = 15 := by decide
    rw [addSz_npos_one, this]
    unfold subSz
    omega
  have hnp : pre.length ≠ npos := by
    simp [npos]; omega
  unfold propertyStep
  simp only [hfirst, if_neg hnp, h1, h2, h3, h4, h5, if_true]
  cases env.getPropertyBool (pre ++ "@shPropertyBool".toList) <;> rfl

/-- The property step on `pre @shPropertyBool(a` with no `)` after the `(`:
the search for `)` gives `npos`, the name the resolver is asked for is the
text after the `(`, and the text from the `@` on is replaced. -/
theorem propertyStep_bool_no_close (env : Env) (pre a : Str)
    (hlen : (pre ++ '@' :: "shPropertyBool".toList ++ '(' :: a).length < npos)
    (hpre : '@' ∉ pre) (hne : pre ≠ []) (ha : ')' ∉ a) :
    propertyStep env (pre ++ '@' :: "shPropertyBool".toList ++ '(' :: a)
      = match env.getPropertyBool a with
        | .error e => .error e
        | .ok b => .ok (some (pre ++ boolLit b)) := by
  have hl : pre.length + a.length + 16 < 2 ^ 64 - 1 := by
    simp [npos] at hlen
    omega
  have hpos : 0 < pre.length := List.length_pos.mpr hne
  obtain ⟨h1, h3⟩ := command_parse pre "shPropertyBool".toList a hlen (by decide)
  have hfirst : find (pre ++ '@' :: "shPropertyBool".toList ++ '(' :: a) mProperty 0
      = pre.length := by
    rw [List.append_assoc]
    exact find_marker_first _ _ _ hpre (List.isPrefixOf_iff_prefix.mp (by rfl))
  have h2 : find (pre ++ '@' :: "shPropertyBool".toList ++ '(' :: a) [')'] pre.length
      = npos := by
    rw [List.append_assoc]
    exact find_char_absent _ _ _ (by simp [ha])
  have hc : ("shPropertyBool".toList).length = 14 := by decide
  have h4 : substr (pre ++ '@' :: "shPropertyBool".toList ++ '(' :: a)
      (addSz (pre.length + 1 + ("shPropertyBool".toList).length) 1)
      (subSz npos (addSz (pre.length + 1 + ("shPropertyBool".toList).length) 1))
      = .ok a := by
    have e : pre ++ '@' :: "shPropertyBool".toList ++ '(' :: a
        = (pre ++ '@' :: "shPropertyBool".toList ++ ['(']) ++ a := by simp
    rw [e, hc]
    apply substr_to_end
    · rw [addSz_eq _ _ (by omega)]; simp
    · rw [addSz_eq _ _ (by omega)]
      unfold subSz npos
      omega
  have h5 : ∀ v, replace (pre ++ '@' :: "shPropertyBool".toList ++ '(' :: a) pre.length
      (subSz (addSz npos 1) pre.length) v = .ok (pre ++ v) := by
    intro v
    rw [List.append_assoc]
    apply replace_to_end _ _ _ _ _ rfl
    have : ('@' :: "shPropertyBool".toList ++ '(' :: a).length = a.length + 16 := by simp
    rw [addSz_npos_one, this]
    unfold subSz
    omega
  have hnp : pre.length ≠ npos := by
    simp [npos]; omega
  unfold propertyStep
  simp only [hfirst, if_neg hnp, h1, h2, h3, h4, h5, if_true]
  cases env.getPropertyBool a <;> rfl

/-- C12, what the code does: for a setting name `S` (no `,`, `)`, `@`) that
is not a key of the global-settings map and a literal `V` (no `)`, `@`, not
beginning with a space), the expansion of `@shGlobalSettingEqual(S,` spaces
`V)` returns no text; it reaches `find(settingName)->second` with `find`
giving `end()`. The code has no test of the iterator and raises no lookup
error there: dereferencing `end()` is undefined behaviour. -/
theorem C12_undefined_setting_dereferences_end (env : Env) (S V : Str) (k fuel : Nat)
    (hS1 : ',' ∉ S) (hS2 : ')' ∉ S) (hS3 : '@' ∉ S)
    (hV1 : ')' ∉ V) (hV2 : '@' ∉ V) (hV3 : V.head? ≠ some ' ')
    (hlen : ("@shGlobalSettingEqual(".toList ++ S ++ [','] ++ spaces k ++ V ++ [')']).length
      < npos)
    (hfuel : 1 ≤ fuel) (hv : env.globalSettings S = none) :
    expand env fuel ("@shGlobalSettingEqual(".toList ++ S ++ [','] ++ spaces k ++ V ++ [')'])
      = some (.error .invalidIterator) := by
  obtain ⟨f, rfl⟩ : ∃ f, fuel = f + 1 := ⟨fuel - 1, by omega⟩
  have e : "@shGlobalSettingEqual(".toList ++ S ++ [','] ++ spaces k ++ V ++ [')']
      = [] ++ directive "shGlobalSettingEqual".toList (S ++ ',' :: spaces k ++ V) ++ [] := by
    simp [directive]
  rw [e] at hlen ⊢
  have hfirst : find ([] ++ directive "shGlobalSettingEqual".toList
      (S ++ ',' :: spaces k ++ V) ++ []) mGlobalSetting 0 = ([] : Str).length := by
    rw [List.append_assoc]
    exact find_marker_first _ _ _ (by simp) (List.isPrefixOf_iff_prefix.mp (by rfl))
  have hstep := globalSettingStep_equal env [] S V [] k hlen hfirst hS1 hS2 hV3 hV1
  rw [hv] at hstep
  apply expand_global_error env f _ _ _ hstep
  have hrest : '@' ∉ "shGlobalSettingEqual".toList ++ '(' :: (S ++ ',' :: spaces k ++ V)
      ++ [')'] := by
    simp [hS3, hV2, spaces]
  have := absent_of_single_at "shProperty".toList _ hrest
    (fun h => by simp [List.cons_prefix_cons] at h)
  simpa [directive, mProperty] using this

theorem C12_undefined_setting_dereferences_end_witness :
    expand exampleEnv 1 "@shGlobalSettingEqual(fog, on)".toList
      = some (.error .invalidIterator) :=
  C12_undefined_setting_dereferences_end exampleEnv "fog".toList "on".toList 1 1 (by decide)
    (by decide) (by decide) (by decide) (by decide) (by decide) (by decide) (by decide)
    (by decide)

/-- C16, what the code does: the foreach pass searches for `@shForeach` and
never reads the command name, so `@shForeachX(2)a@shEndForeach` is unrolled
like `@shForeach(2)a@shEndForeach`, and so is a marker with other text before
its parenthesis; no unknown-command error is raised. -/
theorem C16_foreach_command_unchecked :
    expand exampleEnv 2 "@shForeachX(2)a@shEndForeach".toList = some (.ok "aa".toList) ∧
    expand exampleEnv 2 "@shForeachBlock later (3)i@shIteration;@shEndForeach".toList
      = some (.ok "i0;i1;i2;".toList) ∧
    expand exampleEnv 2 "@shForeach(2)a@shEndForeach".toList = some (.ok "aa".toList) := by
  decide

/-! ## The constructor -/

theorem finish_supported (name : Str) (program : Program) :
    (finish name program).getName = name ∧
    (finish name program).getSupported = program.supported ∧
    (finish name program).mProgram = program := by
  cases program with
  | mk s => cases s <;> simp [finish, ShaderInstance.getName, ShaderInstance.getSupported]

/-- Every instance the constructor returns was made by `finish` from the
program the backend returned, for a vertex or a fragment shader set. -/
theorem construct_ok (backend : Backend) (parent : ShaderSet) (env : Env) (fuel : Nat)
    (log : List Call) (inst : ShaderInstance)
    (h : construct backend parent env fuel = some (log, .ok inst)) :
    (parent.type = parent.Type_Vertex ∨ parent.type = parent.Type_Fragment) ∧
    ∃ program, inst = finish env.name program := by
  unfold construct at h
  split at h
  · simp at h
  · simp at h
  split at h
  · simp at h
  split at h
  · rename_i hv
    split at h
    · simp at h
    · rename_i program _
      refine ⟨Or.inl hv, program, ?_⟩
      simp only [Option.some.injEq, Prod.mk.injEq, Except.ok.injEq] at h
      exact h.2.symm
  · split at h
    · rename_i hf
      split at h
      · simp at h
      · rename_i program _
        refine ⟨Or.inr hf, program, ?_⟩
        simp only [Option.some.injEq, Prod.mk.injEq, Except.ok.injEq] at h
        exact h.2.symm
    · simp at h

/-- C14: every instance the constructor returns (the stage is then vertex or
fragment) has as `getName()` the name given to the constructor and as
`getSupported()` the `getSupported()` of the program the backend returned,
which it holds as `mProgram`. When the expansion and the preprocessor succeed
and the backend returns a program for the stage, the constructor returns such
an instance, also when the program is not supported. -/
theorem C14_supported_flag_and_name (backend : Backend) (parent : ShaderSet) (env : Env)
    (fuel : Nat) :
    (∀ log inst, construct backend parent env fuel = some (log, .ok inst) →
      (parent.type = parent.Type_Vertex ∨ parent.type = parent.Type_Fragment) ∧
      inst.getName = env.name ∧
      (inst.getSupported = true ↔ inst.mProgram.supported = true)) ∧
    (∀ text newSource program, expand env fuel parent.source = some (.ok text) →
      backend.preprocess text parent.basePath env.name = .ok newSource →
      ((parent.type = parent.Type_Vertex ∧
          backend.createVertexProgram env.name parent.profile newSource
            backend.currentLanguage = .ok program) ∨
        (parent.type ≠ parent.Type_Vertex ∧ parent.type = parent.Type_Fragment ∧
          backend.createFragmentProgram env.name parent.profile newSource
            backend.currentLanguage = .ok program)) →
      ∃ log inst, construct backend parent env fuel = some (log, .ok inst) ∧
        inst.getName = env.name ∧ inst.getSupported = program.supported ∧
        inst.mProgram = program) := by
  constructor
  · intro log inst h
    obtain ⟨hty, program, rfl⟩ := construct_ok backend parent env fuel log inst h
    obtain ⟨h1, h2, h3⟩ := finish_supported env.name program
    refine ⟨hty, h1, ?_⟩
    rw [h2, h3]
  · intro text newSource program hexp hpre hstage
    obtain ⟨h1, h2, h3⟩ := finish_supported env.name program
    rcases hstage with ⟨hv, hc⟩ | ⟨hnv, hf, hc⟩
    · refine ⟨[Call.preprocess text parent.basePath env.name,
        Call.createVertexProgram env.name parent.profile newSource backend.currentLanguage],
        finish env.name program, ?_, h1, h2, h3⟩
      unfold construct
      rw [hexp]
      simp only []
      rw [hpre]
      simp only [if_pos hv]
      rw [hc]
    · refine ⟨[Call.preprocess text parent.basePath env.name,
        Call.createFragmentProgram env.name parent.profile newSource backend.currentLanguage],
        finish env.name program, ?_, h1, h2, h3⟩
      unfold construct
      rw [hexp]
      simp only []
      rw [hpre]
      simp only [if_neg hnv, if_pos hf]
      rw [hc]

theorem C14_supported_flag_and_name_witness :
    ∃ log inst, construct exampleBackend (exampleSet "c = @shPropertyBool(useShadows);".toList)
        exampleEnv 2 = some (log, .ok inst) ∧
      inst.getName = "terrain".toList ∧ inst.getSupported = false ∧
      inst.mProgram = { supported := false } :=
  (C14_supported_flag_and_name exampleBackend
    (exampleSet "c = @shPropertyBool(useShadows);".toList) exampleEnv 2).2
    "c = 1;".toList "c = 1;".toList { supported := false } (by decide) (by decide)
    (Or.inl ⟨by decide, by decide⟩)

/-! ## Several directives in one text -/

theorem withDirectives_append (A t : Str) (rest : List (Str × Bool × Str)) :
    A ++ withDirectives t rest = withDirectives (A ++ t) rest := by
  cases rest with
  | nil => rfl
  | cons it rest =>
    obtain ⟨p, b, u⟩ := it
    simp [withDirectives]

theorem withLiterals_append (A t : Str) (rest : List (Str × Bool × Str)) :
    A ++ withLiterals t rest = withLiterals (A ++ t) rest := by
  cases rest with
  | nil => rfl
  | cons it rest =>
    obtain ⟨p, b, u⟩ := it
    simp [withLiterals]

theorem withLiterals_no_at (t0 : Str) (items : List (Str × Bool × Str)) (h0 : '@' ∉ t0)
    (h : ∀ it ∈ items, '@' ∉ it.2.2) : '@' ∉ withLiterals t0 items := by
  induction items generalizing t0 with
  | nil => simpa [withLiterals] using h0
  | cons it rest ih =>
    obtain ⟨p, b, u⟩ := it
    have hu : '@' ∉ u := h (p, b, u) (by simp)
    have hr := ih u hu (fun it hit => h it (by simp [hit]))
    have hb : '@' ∉ (if b then "1".toList else "0".toList) := by
      cases b <;> decide
    simp only [withLiterals, List.mem_append, not_or]
    exact ⟨⟨h0, hb⟩, hr⟩

theorem withDirectives_length (t0 : Str) (items : List (Str × Bool × Str)) :
    t0.length ≤ (withDirectives t0 items).length := by
  cases items with
  | nil => simp [withDirectives]
  | cons it rest =>
    obtain ⟨p, b, u⟩ := it
    simp only [withDirectives, List.length_append]
    omega

/-- The property pass replaces the directives one after the other, from the
left. -/
theorem propertyPass_many (env : Env) (items : List (Str × Bool × Str)) :
    ∀ (t0 : Str) (fuel : Nat), '@' ∉ t0 →
      (∀ it ∈ items, ')' ∉ it.1 ∧ '@' ∉ it.2.2 ∧ env.getPropertyBool it.1 = .ok it.2.1) →
      (withDirectives t0 items).length < npos → items.length + 1 ≤ fuel →
      propertyPass env fuel (withDirectives t0 items) = some (.ok (withLiterals t0 items)) := by
  induction items with
  | nil =>
    intro t0 fuel h0 _ _ hfuel
    obtain ⟨f, rfl⟩ : ∃ f, fuel = f + 1 := ⟨fuel - 1, by simp at hfuel; omega⟩
    exact iterate_done _ _ _ (propertyStep_none env _
      (find_eq_npos_of_absent _ _ _ (absent_of_not_mem _ _ _ h0)))
  | cons it rest ih =>
    intro t0 fuel h0 hitems hlen hfuel
    obtain ⟨p, b, u⟩ := it
    obtain ⟨hp, hu, hres⟩ := hitems (p, b, u) (by simp)
    obtain ⟨f, rfl⟩ : ∃ f, fuel = f + 1 := ⟨fuel - 1, by simp at hfuel; omega⟩
    have e : withDirectives t0 ((p, b, u) :: rest)
        = t0 ++ directive "shPropertyBool".toList p ++ withDirectives u rest := by
      simp [withDirectives, directive]
    rw [e] at hlen ⊢
    have hfirst : find (t0 ++ directive "shPropertyBool".toList p ++ withDirectives u rest)
        mProperty 0 = t0.length := by
      rw [List.append_assoc]
      exact find_marker_first _ _ _ h0 (List.isPrefixOf_iff_prefix.mp (by rfl))
    have hstep := propertyStep_bool env t0 p (withDirectives u rest) hlen hfirst hp
    rw [hres] at hstep
    have hlit : boolLit b = if b then "1".toList else "0".toList := by
      cases b <;> rfl
    have e2 : t0 ++ boolLit b ++ withDirectives u rest
        = withDirectives (t0 ++ boolLit b ++ u) rest := withDirectives_append _ _ _
    have e3 : withLiterals t0 ((p, b, u) :: rest)
        = withLiterals (t0 ++ boolLit b ++ u) rest := by
      rw [← withLiterals_append, hlit]
      rfl
    show iterate _ _ _ = _
    rw [iterate_next _ _ _ _ hstep, e2, e3]
    apply ih
    · simp [h0, hu, boolLit_no_at]
    · intro it hit
      exact hitems it (by simp [hit])
    · rw [← e2]
      have hb : (boolLit b).length = 1 := by cases b <;> rfl
      simp only [List.length_append, hb, directive, List.length_cons, List.length_nil] at hlen ⊢
      omega
    · simp at hfuel
      omega

/-- C15: in a text `t0 @shPropertyBool(p1) t1 ... @shPropertyBool(pn) tn` whose
segments `ti` have no `@` and whose names `pi` have no `)` and resolve to the
booleans `bi`, the expansion replaces every directive by `"1"` or `"0"` and
keeps every segment in place and in order: the result is
`t0 b1 t1 ... bn tn`. -/
theorem C15_multiple_occurrences (env : Env) (t0 : Str) (items : List (Str × Bool × Str))
    (fuel : Nat) (h0 : '@' ∉ t0)
    (hitems : ∀ it ∈ items,
      ')' ∉ it.1 ∧ '@' ∉ it.2.2 ∧ env.getPropertyBool it.1 = .ok it.2.1)
    (hlen : (withDirectives t0 items).length < npos) (hfuel : items.length + 1 ≤ fuel) :
    expand env fuel (withDirectives t0 items) = some (.ok (withLiterals t0 items)) := by
  obtain ⟨f, rfl⟩ : ∃ f, fuel = f + 1 := ⟨fuel - 1, by omega⟩
  have hpass := propertyPass_many env items t0 (f + 1) h0 hitems hlen hfuel
  have hat := withLiterals_no_at t0 items h0 (fun it hit => (hitems it hit).2.1)
  exact expand_of_propertyPass env f _ _ hpass (absent_of_not_mem _ _ _ hat)
    (absent_of_not_mem _ _ _ hat)

theorem C15_multiple_occurrences_witness :
    expand agreeingEnv 3 "a = @shPropertyBool(p); b = @shPropertyBool(q);".toList
      = some (.ok "a = 1; b = 1;".toList) :=
  C15_multiple_occurrences agreeingEnv "a = ".toList
    [("p".toList, true, "; b = ".toList), ("q".toList, true, ";".toList)] 3 (by decide)
    (by decide) (by decide) (by decide)

/-! ## The order of the passes -/

theorem replace_all_at_free (body d m : Str) (h : '@' ∉ body) :
    replace_all body ('@' :: m) d = body := by
  have := replace_all_segment body [] d m h
  simpa [replace_all_nil] using this

theorem unroll_at_free (body : Str) (N : Nat) (h : '@' ∉ body) :
    unroll body (N : Int) = (List.replicate N body).flatten := by
  rw [unroll_eq]
  have e : (fun i : Nat => replace_all body mIteration (decimal i)) = fun _ => body := by
    funext i
    exact replace_all_at_free body (decimal i) "shIteration".toList h
  rw [e, List.map_const', List.length_range]

/-- C17: when the string property `n` resolves to the decimal rendering of
`N < 2 ^ 31` and the body has no `@`, the property pass turns
`@shForeach(@shPropertyString(n))` body `@shEndForeach` into `@shForeach(N)`
body `@shEndForeach` before the foreach pass runs, so that both texts expand to
`N` copies of the body. -/
theorem C17_pass_order (env : Env) (N : Nat) (n body : Str) (fuel : Nat) (hN : N < 2 ^ 31)
    (hn : ')' ∉ n) (hbody : '@' ∉ body)
    (hres : env.getPropertyString n = .ok (decimal N))
    (hlen1 : ("@shForeach(@shPropertyString(".toList ++ n ++ "))".toList ++ body
      ++ "@shEndForeach".toList).length < npos)
    (hlen2 : ("@shForeach(".toList ++ decimal N ++ [')'] ++ body
      ++ "@shEndForeach".toList).length < npos)
    (hfuel : 2 ≤ fuel) :
    expand env fuel ("@shForeach(@shPropertyString(".toList ++ n ++ "))".toList ++ body
        ++ "@shEndForeach".toList) = some (.ok (List.replicate N body).flatten) ∧
    expand env fuel ("@shForeach(".toList ++ decimal N ++ [')'] ++ body
        ++ "@shEndForeach".toList) = some (.ok (List.replicate N body).flatten) := by
  obtain ⟨f, rfl⟩ := two_le_fuel fuel hfuel
  have e2 : "@shForeach(".toList ++ decimal N ++ [')'] ++ body ++ "@shEndForeach".toList
      = [] ++ directive "shForeach".toList (decimal N) ++ (body ++ mEndForeach ++ []) := by
    simp [directive, mEndForeach]
  have hb : ∀ q, q < body.length → (body.drop q).head? = some '@' →
      mIteration <+: body.drop q := by
    intro q hq hh
    exfalso
    rw [List.drop_eq_getElem_cons hq] at hh
    simp only [List.head?_cons, Option.some.injEq] at hh
    exact hbody (hh ▸ List.getElem_mem _)
  rw [e2] at hlen2
  obtain ⟨hp, hg, hstep⟩ := foreach_block_facts N body hN hb hlen2
  have hat : '@' ∉ unroll body (N : Int) := unroll_no_at body N hb
  have hnof : find (unroll body (N : Int)) mForeach 0 = npos :=
    find_eq_npos_of_absent _ _ _ (absent_of_not_mem _ _ _ hat)
  have hsecond := expand_single_foreach env f _ _ hp hg hstep hnof
  rw [unroll_at_free body N hbody] at hsecond hnof hstep
  refine ⟨?_, by rw [e2]; exact hsecond⟩
  have e1 : "@shForeach(@shPropertyString(".toList ++ n ++ "))".toList ++ body
        ++ "@shEndForeach".toList
      = "@shForeach(".toList ++ directive "shPropertyString".toList n
        ++ (')' :: body ++ mEndForeach) := by
    simp [directive, mEndForeach]
  rw [e1] at hlen1 ⊢
  have hfirst : find ("@shForeach(".toList ++ directive "shPropertyString".toList n
      ++ (')' :: body ++ mEndForeach)) mProperty 0 = ("@shForeach(".toList).length := by
    rw [List.append_assoc]
    refine find_first _ _ _ ?_ (List.isPrefixOf_iff_prefix.mp (by rfl))
    exact no_marker_in_toks [mForeach] "shProperty".toList "@shForeach(".toList _
      (toks_single [mForeach] "shForeach".toList ['('] (by simp [mForeach]) (by decide))
      (by decide)
  have e3 : "@shForeach(".toList ++ decimal N ++ (')' :: body ++ mEndForeach)
      = [] ++ directive "shForeach".toList (decimal N) ++ (body ++ mEndForeach ++ []) := by
    simp [directive]
  have hstep1 : propertyStep env ("@shForeach(".toList ++ directive "shPropertyString".toList n
        ++ (')' :: body ++ mEndForeach))
      = .ok (some ([] ++ directive "shForeach".toList (decimal N)
        ++ (body ++ mEndForeach ++ []))) := by
    have h := propertyStep_string env "@shForeach(".toList n (')' :: body ++ mEndForeach)
      hlen1 hfirst hn
    rw [hres] at h
    rw [← e3]
    exact h
  apply expand_of_passes env _ _ _ _ _ _
    (iterate_done _ _ _ (globalSettingStep_none env _ hg))
  · show iterate _ _ _ = _
    rw [iterate_next _ _ _ _ hstep]
    exact iterate_done _ _ _ (foreachStep_none _ hnof)
  · show iterate _ _ _ = _
    rw [iterate_next _ _ _ _ hstep1]
    exact iterate_done _ _ _ (propertyStep_none env _ hp)

theorem C17_pass_order_witness :
    expand countEnv 2 "@shForeach(@shPropertyString(count))ab@shEndForeach".toList
        = some (.ok "ababab".toList) ∧
    expand countEnv 2 "@shForeach(3)ab@shEndForeach".toList = some (.ok "ababab".toList) :=
  C17_pass_order countEnv 3 "count".toList "ab".toList 2 (by decide) (by decide) (by decide)
    (by decide) (by decide) (by decide) (by decide)

/-! ## Termination of the global-setting pass -/

/-- A replacement by the global-setting pass, with the index of the marker and
the length of the replaced span as the source computes them. -/
theorem globalSettingStep_span (env : Env) (s u : Str)
    (h : globalSettingStep env s = .ok (some u)) :
    find s mGlobalSetting 0 ≠ npos ∧
    ∃ b : Bool, u = s.take (find s mGlobalSetting 0) ++ boolLit b
      ++ (s.drop (find s mGlobalSetting 0)).drop
        (subSz (addSz (find s [')'] (find s mGlobalSetting 0)) 1) (find s mGlobalSetting 0)) := by
  unfold globalSettingStep at h
  simp only [] at h
  split at h
  · simp at h
  rename_i hpos
  split at h
  · simp at h
  split at h
  · simp at h
  split at h
  · simp at h
  rename_i v hv
  split at h
  · simp at h
  rename_i x hx
  have hu : x = u := by
    simpa using h
  have hb : ∃ b, v = boolLit b := by
    split at hv
    · repeat' split at hv
      all_goals first
        | (simp at hv; done)
        | exact ⟨_, (Except.ok.inj hv).symm⟩
    · simp at hv
  obtain ⟨b, rfl⟩ := hb
  exact ⟨hpos, b, hu ▸ replace_ok _ _ _ _ _ hx⟩

theorem close_not_inside_marker : ∀ j, j < 16 → ∀ tail : Str,
    ¬ [')'] <+: mGlobalSetting.drop j ++ tail := by
  intro j hj tail
  interval_cases j <;> simp [mGlobalSetting, List.cons_prefix_cons]

theorem boolLit_length (b : Bool) : (boolLit b).length = 1 := by
  cases b <;> rfl

/-- The length of the text after a replacement by the global-setting pass:
shorter by 15 characters or more, except when the marker is at index 0 and no
`)` follows, where the text grows by one character. -/
theorem globalSettingStep_length (env : Env) (s u : Str) (hlen : s.length < npos)
    (h : globalSettingStep env s = .ok (some u)) :
    16 ≤ s.length ∧
    (u.length + 15 ≤ s.length ∨
      (find s mGlobalSetting 0 = 0 ∧ find s [')'] 0 = npos ∧ ∃ b, u = boolLit b ++ s)) := by
  obtain ⟨hpos, b, hu⟩ := globalSettingStep_span env s u h
  obtain ⟨_, hp2, hp3⟩ := find_found s mGlobalSetting 0 _ rfl hpos
  generalize find s mGlobalSetting 0 = pos at *
  have hm : mGlobalSetting.length = 16 := by decide
  have hocc : pos + 16 ≤ s.length := by
    have := hp3.length_le
    simp only [List.length_drop, hm] at this
    omega
  have hl : s.length < 2 ^ 64 - 1 := hlen
  refine ⟨by omega, ?_⟩
  by_cases hend : find s [')'] pos = npos
  · rw [hend, addSz_npos_one] at hu
    by_cases hp0 : pos = 0
    · right
      subst hp0
      refine ⟨rfl, hend, b, ?_⟩
      have : subSz 0 0 = 0 := by decide
      rw [hu, this]
      simp
    · left
      have hsub : subSz 0 pos = 2 ^ 64 - pos := by
        unfold subSz
        omega
      rw [hu, hsub, List.drop_drop, List.drop_eq_nil_of_le (by omega)]
      simp only [List.length_append, List.length_take, boolLit_length, List.length_nil]
      omega
  · left
    obtain ⟨he1, he2, he3⟩ := find_found s [')'] pos _ rfl hend
    generalize find s [')'] pos = end_ at *
    have hlt : end_ < s.length := by
      have := he3.length_le
      simp only [List.length_drop, List.length_singleton] at this
      omega
    have hfar : pos + 16 ≤ end_ := by
      by_contra hcon
      obtain ⟨tail, ht⟩ := hp3
      have e : s.drop end_ = (s.drop pos).drop (end_ - pos) := by
        rw [List.drop_drop]
        congr 1
        omega
      rw [e, ← ht, List.drop_append_of_le_length (by rw [hm]; omega)] at he3
      exact close_not_inside_marker (end_ - pos) (by omega) tail he3
    have hsub : subSz (addSz end_ 1) pos = end_ + 1 - pos := by
      rw [addSz_eq _ _ (by omega), subSz_eq _ _ (by omega) (by omega)]
    rw [hu, hsub, List.drop_drop]
    simp only [List.length_append, List.length_take, boolLit_length, List.length_drop]
    omega

theorem settingMeasure_bounds (s : Str) :
    s.length ≤ settingMeasure s ∧ settingMeasure s ≤ s.length + 2 := by
  unfold settingMeasure
  split <;> omega

/-- Every replacement by the global-setting pass makes the measure smaller. -/
theorem globalSettingStep_measure (env : Env) (s u : Str) (hlen : s.length < npos)
    (h : globalSettingStep env s = .ok (some u)) :
    16 ≤ s.length ∧ settingMeasure u < settingMeasure s := by
  obtain ⟨h16, hcase⟩ := globalSettingStep_length env s u hlen h
  refine ⟨h16, ?_⟩
  rcases hcase with hshort | ⟨h0, hno, b, rfl⟩
  · have := (settingMeasure_bounds u).2
    have := (settingMeasure_bounds s).1
    omega
  · have hs : settingMeasure s = s.length + 2 := by
      unfold settingMeasure
      rw [if_pos ⟨h0, hno⟩]
    have hu : settingMeasure (boolLit b ++ s) = s.length + 1 := by
      unfold settingMeasure
      have hne : ¬ (find (boolLit b ++ s) mGlobalSetting 0 = 0
          ∧ find (boolLit b ++ s) [')'] 0 = npos) := by
        rintro ⟨hz, _⟩
        obtain ⟨_, _, hp⟩ := find_found (boolLit b ++ s) mGlobalSetting 0 0 hz (by decide)
        cases b <;> simp [boolLit, mGlobalSetting, List.cons_prefix_cons] at hp
      rw [if_neg hne]
      simp [boolLit_length]
      omega
    omega

/-- The global-setting loop ends within `f + 1` iterations on a text of
measure at most `f + 2`. -/
theorem globalSettingPass_ends (env : Env) : ∀ (f : Nat) (s : Str),
    settingMeasure s ≤ f + 2 → f + 2 < npos →
    ∃ r, iterate (globalSettingStep env) (f + 1) s = some r := by
  intro f
  induction f with
  | zero =>
    intro s hm hf
    have hlen : s.length < npos := by
      have := (settingMeasure_bounds s).1
      omega
    cases hs : globalSettingStep env s with
    | error e => exact ⟨_, iterate_error _ _ _ _ hs⟩
    | ok o =>
      cases o with
      | none => exact ⟨_, iterate_done _ _ _ hs⟩
      | some u =>
        have := (globalSettingStep_measure env s u hlen hs).1
        have := (settingMeasure_bounds s).1
        omega
  | succ f ih =>
    intro s hm hf
    have hlen : s.length < npos := by
      have := (settingMeasure_bounds s).1
      omega
    cases hs : globalSettingStep env s with
    | error e => exact ⟨_, iterate_error _ _ _ _ hs⟩
    | ok o =>
      cases o with
      | none => exact ⟨_, iterate_done _ _ _ hs⟩
      | some u =>
        have hdec := (globalSettingStep_measure env s u hlen hs).2
        obtain ⟨r, hr⟩ := ih u (by omega) (by omega)
        exact ⟨r, by rw [iterate_next _ _ _ _ hs]; exact hr⟩

/-- C18, as stated, fails: with the marker at index 0 and no `)` in the text,
the replaced span is empty; the iteration puts the literal in front of the
text, which becomes one character longer. -/
theorem C18_text_grows_counterexample :
    globalSettingStep agreeingEnv "@shGlobalSettingEqual(a, v".toList
        = .ok (some "1@shGlobalSettingEqual(a, v".toList) ∧
    ("1@shGlobalSettingEqual(a, v".toList).length
        = ("@shGlobalSettingEqual(a, v".toList).length + 1 ∧
    globalSettingPass agreeingEnv 3 "@shGlobalSettingEqual(a, v".toList
        = some (.ok "11".toList) := by
  decide

/-- C18, amended: for every text (with two characters to spare below `npos`)
and every settings map the global-setting pass stops, after at most as many
replacing iterations as the text has characters. An iteration that replaces
makes the text shorter, by 15 characters or more, except when the marker is at
index 0 and the text has no `)`: then nothing is taken out and the literal is
put in front of the text. -/
theorem C18_global_pass_terminates (env : Env) (source : Str)
    (hlen : source.length + 2 < npos) :
    (∃ r, globalSettingPass env (source.length + 1) source = some r) ∧
    (∀ s u, s.length < npos → globalSettingStep env s = .ok (some u) →
      u.length + 15 ≤ s.length ∨
      (find s mGlobalSetting 0 = 0 ∧ find s [')'] 0 = npos ∧
        ∃ b : Bool, u = (if b then "1".toList else "0".toList) ++ s)) := by
  constructor
  · exact globalSettingPass_ends env source.length source (settingMeasure_bounds source).2 hlen
  · intro s u hs hstep
    rcases (globalSettingStep_length env s u hs hstep).2 with h | ⟨h0, hno, b, hb⟩
    · exact Or.inl h
    · refine Or.inr ⟨h0, hno, b, ?_⟩
      rw [hb]
      cases b <;> rfl

theorem C18_global_pass_terminates_witness :
    ∃ r, globalSettingPass agreeingEnv
      (("a = @shGlobalSettingEqual(x, v);".toList).length + 1)
      "a = @shGlobalSettingEqual(x, v);".toList = some r :=
  (C18_global_pass_terminates agreeingEnv "a = @shGlobalSettingEqual(x, v);".toList
    (by decide)).1

/-! ## A failing resolver and the constructor -/

theorem withLiterals_length_le (t0 : Str) (items : List (Str × Bool × Str)) :
    (withLiterals t0 items).length ≤ (withDirectives t0 items).length := by
  induction items generalizing t0 with
  | nil => simp [withLiterals, withDirectives]
  | cons it rest ih =>
    obtain ⟨p, b, u⟩ := it
    have := ih u
    have hb : (if b then "1".toList else "0".toList).length = 1 := by cases b <;> rfl
    simp only [withLiterals, withDirectives, List.length_append, hb, List.length_singleton]
    have : ("@shPropertyBool(".toList).length = 16 := by decide
    omega

/-- The property pass replaces the directives of the front part of a text one
after the other, whatever text follows them. -/
theorem propertyPass_front (env : Env) (items : List (Str × Bool × Str)) :
    ∀ (t0 tail : Str) (f : Nat), '@' ∉ t0 →
      (∀ it ∈ items, ')' ∉ it.1 ∧ '@' ∉ it.2.2 ∧ env.getPropertyBool it.1 = .ok it.2.1) →
      (withDirectives t0 items ++ tail).length < npos →
      propertyPass env (f + items.length) (withDirectives t0 items ++ tail)
        = propertyPass env f (withLiterals t0 items ++ tail) := by
  induction items with
  | nil =>
    intro t0 tail f _ _ _
    rfl
  | cons it rest ih =>
    intro t0 tail f h0 hitems hlen
    obtain ⟨p, b, u⟩ := it
    obtain ⟨hp, hu, hres⟩ := hitems (p, b, u) (by simp)
    have e : withDirectives t0 ((p, b, u) :: rest) ++ tail
        = t0 ++ directive "shPropertyBool".toList p ++ (withDirectives u rest ++ tail) := by
      simp [withDirectives, directive]
    rw [e] at hlen ⊢
    have hfirst : find (t0 ++ directive "shPropertyBool".toList p
        ++ (withDirectives u rest ++ tail)) mProperty 0 = t0.length := by
      rw [List.append_assoc]
      exact find_marker_first _ _ _ h0 (List.isPrefixOf_iff_prefix.mp (by rfl))
    have hstep := propertyStep_bool env t0 p (withDirectives u rest ++ tail) hlen hfirst hp
    rw [hres] at hstep
    have hlit : boolLit b = if b then "1".toList else "0".toList := by
      cases b <;> rfl
    have e2 : t0 ++ boolLit b ++ (withDirectives u rest ++ tail)
        = withDirectives (t0 ++ boolLit b ++ u) rest ++ tail := by
      rw [← withDirectives_append]
      simp
    have e3 : withLiterals t0 ((p, b, u) :: rest) ++ tail
        = withLiterals (t0 ++ boolLit b ++ u) rest ++ tail := by
      rw [← withLiterals_append, hlit]
      simp [withLiterals]
    have hf : f + ((p, b, u) :: rest).length = (f + rest.length) + 1 := by
      simp; omega
    rw [hf]
    show iterate _ _ _ = _
    rw [iterate_next _ _ _ _ hstep, e2, e3]
    apply ih
    · simp [h0, hu, boolLit_no_at]
    · intro it hit
      exact hitems it (by simp [hit])
    · rw [← e2]
      have hb : (boolLit b).length = 1 := by cases b <;> rfl
      simp only [List.length_append, hb, directive, List.length_cons, List.length_nil] at hlen ⊢
      omega

/-- C13: when the expansion ends in an error, in particular when the property
pass ends in the error of the resolver for the name of a directive it has
reached, the constructor ends in that error and has called neither the
preprocessor nor the backend: the log of calls is empty. This is so when the
text is `t0 @shPropertyBool(p1) t1 ... @shPropertyBool(pn) tn
@shPropertyBool(P) post` with segments without `@`, the `pi` resolve, and the
resolver fails for `P` (for `n = 0` the failing directive is the first one). -/
theorem C13_failure_before_compile (backend : Backend) (parent : ShaderSet) (env : Env)
    (fuel : Nat) (e : Err) :
    (expand env fuel parent.source = some (.error e) →
      construct backend parent env fuel = some ([], .error e)) ∧
    (propertyPass env fuel parent.source = some (.error e) →
      construct backend parent env fuel = some ([], .error e)) ∧
    (∀ (t0 : Str) (items : List (Str × Bool × Str)) (P post : Str),
      parent.source = withDirectives t0 items ++ "@shPropertyBool(".toList ++ P ++ [')'] ++ post →
      '@' ∉ t0 →
      (∀ it ∈ items, ')' ∉ it.1 ∧ '@' ∉ it.2.2 ∧ env.getPropertyBool it.1 = .ok it.2.1) →
      ')' ∉ P → parent.source.length < npos → items.length + 1 ≤ fuel →
      env.getPropertyBool P = .error e →
      construct backend parent env fuel = some ([], .error e)) := by
  have h1 : expand env fuel parent.source = some (.error e) →
      construct backend parent env fuel = some ([], .error e) := by
    intro h
    unfold construct
    rw [h]
  have h2 : propertyPass env fuel parent.source = some (.error e) →
      construct backend parent env fuel = some ([], .error e) :=
    fun h => h1 (expand_of_propertyPass_error env fuel _ e h)
  refine ⟨h1, h2, ?_⟩
  intro t0 items P post hsrc h0 hitems hP hlen hfuel hres
  obtain ⟨f, rfl⟩ : ∃ f, fuel = (f + 1) + items.length :=
    ⟨fuel - items.length - 1, by omega⟩
  apply h2
  have e1 : withDirectives t0 items ++ "@shPropertyBool(".toList ++ P ++ [')'] ++ post
      = withDirectives t0 items ++ (directive "shPropertyBool".toList P ++ post) := by
    simp [directive]
  rw [hsrc, e1] at hlen ⊢
  rw [propertyPass_front env items t0 _ (f + 1) h0 hitems hlen]
  have hat := withLiterals_no_at t0 items h0 (fun it hit => (hitems it hit).2.1)
  have hlen2 : (withLiterals t0 items ++ directive "shPropertyBool".toList P ++ post).length
      < npos := by
    have := withLiterals_length_le t0 items
    simp only [List.length_append] at hlen ⊢
    omega
  have hfirst : find (withLiterals t0 items ++ directive "shPropertyBool".toList P ++ post)
      mProperty 0 = (withLiterals t0 items).length := by
    rw [List.append_assoc]
    exact find_marker_first _ _ _ hat (List.isPrefixOf_iff_prefix.mp (by rfl))
  have hstep := propertyStep_bool env (withLiterals t0 items) P post hlen2 hfirst hP
  rw [hres] at hstep
  rw [← List.append_assoc]
  exact iterate_error _ _ _ _ hstep

theorem C13_failure_before_compile_witness :
    construct exampleBackend
        (exampleSet "a = @shPropertyBool(useShadows); c = @shPropertyBool(fog);".toList)
        exampleEnv 2
      = some ([], .error (.runtimeError "no property".toList)) :=
  (C13_failure_before_compile exampleBackend
    (exampleSet "a = @shPropertyBool(useShadows); c = @shPropertyBool(fog);".toList)
    exampleEnv 2 (.runtimeError "no property".toList)).2.2 "a = ".toList
    [("useShadows".toList, true, "; c = ".toList)] "fog".toList ";".toList
    (by decide) (by decide) (by decide) (by decide) (by decide) (by decide) (by decide)

/-! ## A text on which the foreach pass does not come to an end -/

/-- The index of the parenthesis and the command name the source computes for a
marker `@cmd` when no `(` follows in the text: the search gives `npos` and the
command name is the text after the `@`, to the end. -/
theorem command_parse_no_open (pre cmd : Str)
    (hlen : (pre ++ '@' :: cmd).length < npos) (hc : '(' ∉ cmd) :
    find (pre ++ '@' :: cmd) ['('] pre.length = npos ∧
    substr (pre ++ '@' :: cmd) (addSz pre.length 1)
      (subSz npos (addSz pre.length 1)) = .ok cmd := by
  have hl : pre.length + cmd.length + 1 < 2 ^ 64 - 1 := by
    simp [npos] at hlen
    omega
  constructor
  · exact find_char_absent _ _ _ (by simp [hc])
  · have e : pre ++ '@' :: cmd = (pre ++ ['@']) ++ cmd := by simp
    rw [e]
    apply substr_to_end
    · rw [addSz_eq _ _ (by omega)]; simp
    · rw [addSz_eq _ _ (by omega)]
      unfold subSz npos
      omega

theorem propertyStep_unknown_no_open (env : Env) (pre cmd : Str)
    (hlen : (pre ++ '@' :: cmd).length < npos)
    (hfirst : find (pre ++ '@' :: cmd) mProperty 0 = pre.length)
    (hc : '(' ∉ cmd) (h1 : cmd ≠ "shPropertyBool".toList)
    (h2 : cmd ≠ "shPropertyString".toList) (h3 : cmd ≠ "shPropertyEqual".toList) :
    propertyStep env (pre ++ '@' :: cmd)
      = .error (.runtimeError (unknownCommand cmd env.name)) := by
  obtain ⟨g1, g2⟩ := command_parse_no_open pre cmd hlen hc
  have hne : pre.length ≠ npos := by
    simp at hlen; omega
  unfold propertyStep
  simp only [hfirst, if_neg hne, g1, g2, if_neg h1, if_neg h2, if_neg h3]

theorem globalSettingStep_unknown_no_open (env : Env) (pre cmd : Str)
    (hlen : (pre ++ '@' :: cmd).length < npos)
    (hfirst : find (pre ++ '@' :: cmd) mGlobalSetting 0 = pre.length)
    (hc : '(' ∉ cmd) (h1 : cmd ≠ "shGlobalSettingBool".toList)
    (h2 : cmd ≠ "shGlobalSettingEqual".toList) :
    globalSettingStep env (pre ++ '@' :: cmd)
      = .error (.runtimeError (unknownCommand cmd env.name)) := by
  obtain ⟨g1, g2⟩ := command_parse_no_open pre cmd hlen hc
  have hne : pre.length ≠ npos := by
    simp at hlen; omega
  unfold globalSettingStep
  simp only [hfirst, if_neg hne, g1, g2, if_neg h1, if_neg h2]

/-- A text is the part before its first `(` followed by nothing or by a text
that starts with `(`. -/
theorem split_at_open (rest : Str) :
    '(' ∉ rest.takeWhile (fun x => x != '(') ∧
    (rest = rest.takeWhile (fun x => x != '(') ∨
      ∃ r, rest = rest.takeWhile (fun x => x != '(') ++ '(' :: r) := by
  induction rest with
  | nil => simp
  | cons a as ih =>
    by_cases ha : a = '('
    · subst ha
      refine ⟨by simp, Or.inr ⟨as, by simp⟩⟩
    · have hb : (a != '(') = true := by simpa using ha
      have htw : (a :: as).takeWhile (fun x => x != '(')
          = a :: as.takeWhile (fun x => x != '(') := by
        rw [List.takeWhile_cons]
        simp only [hb, if_true]
      rw [htw]
      refine ⟨?_, ?_⟩
      · intro hmem
        rcases List.mem_cons.mp hmem with h | h
        · exact ha h.symm
        · exact ih.1 h
      · rcases ih.2 with h | ⟨r, h⟩
        · exact Or.inl (by rw [← h])
        · exact Or.inr ⟨r, by rw [List.cons_append, ← h]⟩

/-- The property step when the first `@shProperty` marker is a command name
followed by a character other than `(`: the command the source reads runs to
the next `(`, or to the end of the text, and is not a recognised one. -/
theorem propertyStep_no_open (env : Env) (pre name rest : Str) (c : Char)
    (hlen : (pre ++ '@' :: name ++ c :: rest).length < npos)
    (hfirst : find (pre ++ '@' :: name ++ c :: rest) mProperty 0 = pre.length)
    (hc : c ≠ '(')
    (hname : name = "shPropertyBool".toList ∨ name = "shPropertyString".toList
      ∨ name = "shPropertyEqual".toList) :
    propertyStep env (pre ++ '@' :: name ++ c :: rest)
      = .error (.runtimeError
          (unknownCommand (name ++ c :: rest.takeWhile (fun x => x != '(')) env.name)) := by
  obtain ⟨hno, hsplit⟩ := split_at_open rest
  have hcmd : '(' ∉ name ++ c :: rest.takeWhile (fun x => x != '(') := by
    intro hmem
    rcases List.mem_append.mp hmem with h | h
    · rcases hname with e | e | e <;> · rw [e] at h; revert h; decide
    · rcases List.mem_cons.mp h with h | h
      · exact hc h.symm
      · exact hno h
  have h1 : name ++ c :: rest.takeWhile (fun x => x != '(') ≠ "shPropertyBool".toList := by
    rcases hname with e | e | e <;> · rw [e]; simp
  have h2 : name ++ c :: rest.takeWhile (fun x => x != '(') ≠ "shPropertyString".toList := by
    rcases hname with e | e | e <;> · rw [e]; simp
  have h3 : name ++ c :: rest.takeWhile (fun x => x != '(') ≠ "shPropertyEqual".toList := by
    rcases hname with e | e | e <;> · rw [e]; simp
  rcases hsplit with h | ⟨r, h⟩
  · have e : pre ++ '@' :: name ++ c :: rest
        = pre ++ '@' :: (name ++ c :: rest.takeWhile (fun x => x != '(')) := by
      rw [← h]; simp
    rw [e] at hlen hfirst ⊢
    exact propertyStep_unknown_no_open env pre _ hlen hfirst hcmd h1 h2 h3
  · have e : pre ++ '@' :: name ++ c :: rest
        = pre ++ '@' :: (name ++ c :: rest.takeWhile (fun x => x != '(')) ++ '(' :: r := by
      conv => lhs; rw [h]
      simp
    rw [e] at hlen hfirst ⊢
    exact propertyStep_unknown env pre _ r hlen hfirst hcmd h1 h2 h3

/-- The global-setting step when the first `@shGlobalSetting` marker is a
command name followed by a character other than `(`. -/
theorem globalSettingStep_no_open (env : Env) (pre name rest : Str) (c : Char)
    (hlen : (pre ++ '@' :: name ++ c :: rest).length < npos)
    (hfirst : find (pre ++ '@' :: name ++ c :: rest) mGlobalSetting 0 = pre.length)
    (hc : c ≠ '(')
    (hname : name = "shGlobalSettingBool".toList ∨ name = "shGlobalSettingEqual".toList) :
    globalSettingStep env (pre ++ '@' :: name ++ c :: rest)
      = .error (.runtimeError
          (unknownCommand (name ++ c :: rest.takeWhile (fun x => x != '(')) env.name)) := by
  obtain ⟨hno, hsplit⟩ := split_at_open rest
  have hcmd : '(' ∉ name ++ c :: rest.takeWhile (fun x => x != '(') := by
    intro hmem
    rcases List.mem_append.mp hmem with h | h
    · rcases hname with e | e <;> · rw [e] at h; revert h; decide
    · rcases List.mem_cons.mp h with h | h
      · exact hc h.symm
      · exact hno h
  have h1 : name ++ c :: rest.takeWhile (fun x => x != '(') ≠ "shGlobalSettingBool".toList := by
    rcases hname with e | e <;> · rw [e]; simp
  have h2 : name ++ c :: rest.takeWhile (fun x => x != '(')
      ≠ "shGlobalSettingEqual".toList := by
    rcases hname with e | e <;> · rw [e]; simp
  rcases hsplit with h | ⟨r, h⟩
  · have e : pre ++ '@' :: name ++ c :: rest
        = pre ++ '@' :: (name ++ c :: rest.takeWhile (fun x => x != '(')) := by
      rw [← h]; simp
    rw [e] at hlen hfirst ⊢
    exact globalSettingStep_unknown_no_open env pre _ hlen hfirst hcmd h1 h2
  · have e : pre ++ '@' :: name ++ c :: rest
        = pre ++ '@' :: (name ++ c :: rest.takeWhile (fun x => x != '(')) ++ '(' :: r := by
      conv => lhs; rw [h]
      simp
    rw [e] at hlen hfirst ⊢
    exact globalSettingStep_unknown env pre _ r hlen hfirst hcmd h1 h2

/-! ## Well-formed blocks before an unmatched `@shForeach` -/

/-- C11, as stated, fails: with a resolver that resolves every name, a command
name at the end of the text (`x@shPropertyBool`, `x@shPropertyString`,
`x@shPropertyEqual`, `x@shGlobalSettingEqual`) and a directive with no `)`
after it (`@shPropertyBool(a`, `x@shPropertyString(a`, `x@shPropertyEqual(a, s`,
`x@shGlobalSettingEqual(a, v`) are expanded to a text, without an error. So is
`@shPropertyBool(a @shPropertyBool x`, where the second command name has no
`(` and is followed by further text: the replacement of the first directive,
which has no `)`, takes it away. -/
theorem C11_missing_parentheses_counterexample :
    expand agreeingEnv 2 "x@shPropertyBool".toList = some (.ok "x1".toList) ∧
    expand agreeingEnv 2 "x@shPropertyString".toList = some (.ok "xs".toList) ∧
    expand agreeingEnv 2 "x@shPropertyEqual".toList = some (.ok "x0".toList) ∧
    expand agreeingEnv 2 "x@shGlobalSettingEqual".toList = some (.ok "x0".toList) ∧
    expand agreeingEnv 3 "@shPropertyBool(a".toList = some (.ok "11".toList) ∧
    expand agreeingEnv 2 "x@shPropertyString(a".toList = some (.ok "xs".toList) ∧
    expand agreeingEnv 2 "x@shPropertyEqual(a, s".toList = some (.ok "x1".toList) ∧
    expand agreeingEnv 2 "x@shGlobalSettingEqual(a, v".toList = some (.ok "x1".toList) ∧
    expand agreeingEnv 3 "@shPropertyBool(a @shPropertyBool x".toList
      = some (.ok "11".toList) := by
  decide

/-- C11, amended: let the text be `pre @name c rest`, where `name` is a
recognised command name and the character `c` after it is not `(`: the opening
parenthesis is missing and the text goes on. If `name` is `shPropertyBool`,
`shPropertyString` or `shPropertyEqual` and no `@shProperty` starts before this
marker, the expansion fails with the `runtime_error`
`unknown command "cmd" in "name of the instance"`, where `cmd` is `name`, `c`
and the text up to the next `(` (to the end of the text when there is none),
whatever the resolver returns. If the text has no `@shProperty` at all, `name`
is `shGlobalSettingBool` or `shGlobalSettingEqual` and no `@shGlobalSetting`
starts before this marker, the expansion fails with the same message, whatever
the settings are. -/
theorem C11_missing_parentheses (env : Env) (pre name rest : Str) (c : Char) (fuel : Nat)
    (hlen : (pre ++ '@' :: name ++ c :: rest).length < npos) (hc : c ≠ '(')
    (hfuel : 1 ≤ fuel) :
    ((name = "shPropertyBool".toList ∨ name = "shPropertyString".toList
        ∨ name = "shPropertyEqual".toList) →
      (∀ q, q < pre.length →
        ¬ "@shProperty".toList <+: (pre ++ '@' :: name ++ c :: rest).drop q) →
      expand env fuel (pre ++ '@' :: name ++ c :: rest)
        = some (.error (.runtimeError
            ("unknown command \"".toList ++ (name ++ c :: rest.takeWhile (fun x => x != '('))
              ++ "\" in \"".toList ++ env.name ++ "\"".toList)))) ∧
    (¬ "@shProperty".toList <:+: pre ++ '@' :: name ++ c :: rest →
      (name = "shGlobalSettingBool".toList ∨ name = "shGlobalSettingEqual".toList) →
      (∀ q, q < pre.length →
        ¬ "@shGlobalSetting".toList <+: (pre ++ '@' :: name ++ c :: rest).drop q) →
      expand env fuel (pre ++ '@' :: name ++ c :: rest)
        = some (.error (.runtimeError
            ("unknown command \"".toList ++ (name ++ c :: rest.takeWhile (fun x => x != '('))
              ++ "\" in \"".toList ++ env.name ++ "\"".toList)))) := by
  obtain ⟨f, rfl⟩ : ∃ f, fuel = f + 1 := ⟨fuel - 1, by omega⟩
  constructor
  · intro hname hq
    have hfirst : find (pre ++ '@' :: name ++ c :: rest) mProperty 0 = pre.length := by
      rw [List.append_assoc]
      refine find_first _ _ _ (by simpa using hq) ?_
      rcases hname with e | e | e <;>
      · rw [e]
        exact List.isPrefixOf_iff_prefix.mp (by rfl)
    exact expand_property_error env f _ _
      (propertyStep_no_open env pre name rest c hlen hfirst hc hname)
  · intro hp hname hq
    have hfirst : find (pre ++ '@' :: name ++ c :: rest) mGlobalSetting 0 = pre.length := by
      rw [List.append_assoc]
      refine find_first _ _ _ (by simpa using hq) ?_
      rcases hname with e | e <;>
      · rw [e]
        exact List.isPrefixOf_iff_prefix.mp (by rfl)
    exact expand_global_error env f _ _ hp
      (globalSettingStep_no_open env pre name rest c hlen hfirst hc hname)

theorem C11_missing_parentheses_witness :
    expand exampleEnv 1 "x@shPropertyBool y".toList
        = some (.error (.runtimeError
            "unknown command \"shPropertyBool y\" in \"terrain\"".toList)) ∧
    expand exampleEnv 1 "x@shGlobalSettingEqual rendersystem, (opengl)".toList
        = some (.error (.runtimeError
            "unknown command \"shGlobalSettingEqual rendersystem, \" in \"terrain\"".toList)) :=
  ⟨(C11_missing_parentheses exampleEnv "x".toList "shPropertyBool".toList "y".toList ' ' 1
      (by decide) (by decide) (by decide)).1 (Or.inl rfl) (by decide),
   (C11_missing_parentheses exampleEnv "x".toList "shGlobalSettingEqual".toList
      "rendersystem, (opengl)".toList ' ' 1 (by decide) (by decide) (by decide)).2
      (by decide) (Or.inr rfl) (by decide)⟩

end sh
